import Mathlib

/-!
The class base_uint: fixed-width unsigned big integers (arith_uint256.h)

A shallow embedding of `template <unsigned int BITS> class base_uint`.

* The member array `uint32_t pn[WIDTH]` is a `List Nat`; a list is a value of
  the type when it has `WIDTH` entries, each below `2^32` (`IsValue`).
* `uint32_t` and `uint64_t` arithmetic is arithmetic on `Nat` reduced
  `% 2^32` and `% 2^64` wherever the C++ operation wraps or truncates.
* A `for (int i = lo; i < WIDTH; i++)` loop is a left fold over the indices
  `lo, lo+1, ..., WIDTH-1` (`forLoop`); the two `while` loops are recursive
  functions with an iteration budget of `WIDTH`.
* An access `pn[i]` under a loop guard `i < WIDTH` is a plain list read or
  write.  An access at a constant index (`pn[0]`, `pn[1]`) is bounds-checked
  (`store`): outside the array it yields `none`.
* `operator==` and `operator!=` compare the bytes of the two arrays with
  `memcmp`; the bytes of a limb are given for both byte orders.
-/

namespace base_uint

/-! ## Data model -/

/-- Source: `static constexpr int WIDTH = BITS / 32;` -/
def WIDTH (BITS : Nat) : Nat := BITS / 32

/-- Source: `static_assert(BITS / 32 > 0 && BITS % 32 == 0, ...)`. -/
def validBITS (BITS : Nat) : Prop := BITS / 32 > 0 ∧ BITS % 32 = 0

instance (BITS : Nat) : Decidable (validBITS BITS) := by
  unfold validBITS; infer_instance

/-- Read of `pn[i]`. -/
def limb (pn : List Nat) (i : Nat) : Nat := pn.getD i 0

/-- A list is a `base_uint` of `W` limbs: `uint32_t pn[W]`. -/
def IsValue (W : Nat) (pn : List Nat) : Prop :=
  pn.length = W ∧ ∀ i, i < W → limb pn i < 2 ^ 32

instance (W : Nat) (pn : List Nat) : Decidable (IsValue W pn) := by
  unfold IsValue; infer_instance

/-- The number denoted by the first `W` limbs: the sum over `i < W` of
`limb i * 2^(32*i)`. -/
def value (W : Nat) (pn : List Nat) : Nat :=
  ((List.range W).map (fun i => limb pn i * 2 ^ (32 * i))).sum

/-- Storage of a newly declared object, before its constructor has run.  Its
content is indeterminate in C++; every constructor overwrites all `W` limbs
(`base_uint_default_eq`, `base_uint_copy_eq`, `base_uint_u64_eq`). -/
def fresh (W : Nat) : List Nat := List.replicate W 0

/-- The loop `for (int i = lo; i < hi; i++) body` run on the state `init`. -/
def forLoop {σ : Type} (lo hi : Nat) (body : Nat → σ → σ) (init : σ) : σ :=
  (List.range' lo (hi - lo)).foldl (fun s i => body i s) init

/-- A write `pn[i] = v` at a constant index: `none` when `i` is outside the
array. -/
def store (pn : List Nat) (i v : Nat) : Option (List Nat) :=
  if i < pn.length then some (pn.set i v) else none

/-! ## Constructors and assignment -/

/-- Source: `base_uint() { for (int i = 0; i < WIDTH; i++) pn[i] = 0; }` run on the
storage `mem`. -/
def base_uint_default (W : Nat) (mem : List Nat) : List Nat :=
  forLoop 0 W (fun i pn => pn.set i 0) mem

/-- Source: `base_uint(const base_uint &b) { for (...) pn[i] = b.pn[i]; }` run on the
storage `mem`. -/
def base_uint_copy (W : Nat) (mem : List Nat) (b : List Nat) : List Nat :=
  forLoop 0 W (fun i pn => pn.set i (limb b i)) mem

/-- Source: `base_uint(uint64_t b)` run on the storage `mem`:
`pn[0] = (unsigned int)b; pn[1] = (unsigned int)(b >> 32);
 for (int i = 2; i < WIDTH; i++) pn[i] = 0;` -/
def base_uint_u64 (W : Nat) (mem : List Nat) (b : Nat) : Option (List Nat) :=
  (store mem 0 (b % 2 ^ 32)).bind fun pn0 =>
  (store pn0 1 ((b >>> 32) % 2 ^ 32)).bind fun pn1 =>
  some (forLoop 2 W (fun i pn => pn.set i 0) pn1)

/-- Source: `base_uint &operator=(uint64_t b)`: the same three statements on the
receiver `pn`. -/
def operator_assign_u64 (W : Nat) (pn : List Nat) (b : Nat) : Option (List Nat) :=
  (store pn 0 (b % 2 ^ 32)).bind fun pn0 =>
  (store pn0 1 ((b >>> 32) % 2 ^ 32)).bind fun pn1 =>
  some (forLoop 2 W (fun i pn => pn.set i 0) pn1)

/-! ## Addition -/

/-- One iteration of the loop of `operator+=(const base_uint &b)` on the state
`(pn, carry)`:
`uint64_t n = carry + pn[i] + b.pn[i]; pn[i] = n & 0xffffffff; carry = n >> 32;` -/
def operator_plus_eq_body (b : List Nat) (i : Nat) (s : List Nat × Nat) : List Nat × Nat :=
  let n := (s.2 + limb s.1 i + limb b i) % 2 ^ 64
  (s.1.set i (n &&& 0xffffffff), n >>> 32)

/-- Source: `base_uint &operator+=(const base_uint &b)`: `carry = 0`, then the loop;
the final carry is dropped. -/
def operator_plus_eq (W : Nat) (pn b : List Nat) : List Nat :=
  (forLoop 0 W (operator_plus_eq_body b) (pn, 0)).1

/-- Source: `operator+(a, b) { return base_uint(a) += b; }` -/
def operator_plus (W : Nat) (a b : List Nat) : List Nat :=
  operator_plus_eq W (base_uint_copy W (fresh W) a) b

/-! ## Increment, decrement, negation, subtraction -/

/-- The loop of `operator++()`: `while (i < WIDTH && ++pn[i] == 0) i++;`
The first argument bounds the number of iterations still to run. -/
def operator_inc_loop (W : Nat) : Nat → Nat → List Nat → List Nat
  | 0, _, pn => pn
  | fuel + 1, i, pn =>
    if i < W then
      let v := (limb pn i + 1) % 2 ^ 32
      if v = 0 then operator_inc_loop W fuel (i + 1) (pn.set i v) else pn.set i v
    else pn

/-- Source: `base_uint &operator++()`: `int i = 0;` then the loop, which runs at most
`WIDTH` times. -/
def operator_inc (W : Nat) (pn : List Nat) : List Nat :=
  operator_inc_loop W W 0 pn

/-- The loop of `operator--()`:
`while (i < WIDTH && --pn[i] == std::numeric_limits<uint32_t>::max()) i++;` -/
def operator_dec_loop (W : Nat) : Nat → Nat → List Nat → List Nat
  | 0, _, pn => pn
  | fuel + 1, i, pn =>
    if i < W then
      let v := (limb pn i + 2 ^ 32 - 1) % 2 ^ 32
      if v = 4294967295 then operator_dec_loop W fuel (i + 1) (pn.set i v) else pn.set i v
    else pn

/-- Source: `base_uint &operator--()`: `int i = 0;` then the loop. -/
def operator_dec (W : Nat) (pn : List Nat) : List Nat :=
  operator_dec_loop W W 0 pn

/-- The complement `~pn[i]` of a `uint32_t`. -/
def not32 (x : Nat) : Nat := 4294967295 - x % 2 ^ 32

/-- Source: `base_uint operator-() const`:
`base_uint ret; for (...) ret.pn[i] = ~pn[i]; ++ret; return ret;` -/
def operator_neg (W : Nat) (pn : List Nat) : List Nat :=
  let ret := base_uint_default W (fresh W)
  let ret := forLoop 0 W (fun i r => r.set i (not32 (limb pn i))) ret
  operator_inc W ret

/-- Source: `base_uint &operator-=(const base_uint &b) { *this += -b; return *this; }` -/
def operator_minus_eq (W : Nat) (pn b : List Nat) : List Nat :=
  operator_plus_eq W pn (operator_neg W b)

/-- Source: `operator-(a, b) { return base_uint(a) -= b; }` -/
def operator_minus (W : Nat) (a b : List Nat) : List Nat :=
  operator_minus_eq W (base_uint_copy W (fresh W) a) b

/-- Source: `base_uint &operator+=(uint64_t b64) { base_uint b; b = b64; *this += b; }` -/
def operator_plus_eq_u64 (W : Nat) (pn : List Nat) (b64 : Nat) : Option (List Nat) :=
  (operator_assign_u64 W (base_uint_default W (fresh W)) b64).bind fun b =>
  some (operator_plus_eq W pn b)

/-- Source: `base_uint &operator-=(uint64_t b64) { base_uint b; b = b64; *this += -b; }` -/
def operator_minus_eq_u64 (W : Nat) (pn : List Nat) (b64 : Nat) : Option (List Nat) :=
  (operator_assign_u64 W (base_uint_default W (fresh W)) b64).bind fun b =>
  some (operator_plus_eq W pn (operator_neg W b))

/-! ## Reference subtraction

The borrow-chain subtraction that `operator-=` is compared with.  It is not
part of the header: it follows the usual schoolbook description, limb by limb
with a borrow of 0 or 1. -/

/-- One limb of a borrow-chain subtraction on the state `(out, borrow)`:
the difference `x[i] - y[i] - borrow` is stored modulo `2^32` and the borrow
into the next limb is 1 exactly when `x[i] < y[i] + borrow`. -/
def spec_borrow_sub_body (x y : List Nat) (i : Nat) (s : List Nat × Nat) : List Nat × Nat :=
  let d := (limb x i + 2 ^ 32 - (limb y i + s.2)) % 2 ^ 32
  (s.1.set i d, if limb x i < limb y i + s.2 then 1 else 0)

/-- Borrow-chain subtraction of `y` from `x` over `W` limbs; the borrow out of
the top limb is dropped. -/
def spec_borrow_sub (W : Nat) (x y : List Nat) : List Nat :=
  (forLoop 0 W (spec_borrow_sub_body x y) (x, 0)).1


/-! ## Bitwise operations -/

/-- One iteration of the loop of `operator~()` on the state `(pn, ret)`, the
receiver and the local result: `ret.pn[i] = ~pn[i];` -/
def operator_not_body (i : Nat) (s : List Nat × List Nat) : List Nat × List Nat :=
  (s.1, s.2.set i (not32 (limb s.1 i)))

/-- Source: `base_uint operator~() const`:
`base_uint ret; for (...) ret.pn[i] = ~pn[i]; return ret;`
The state `(pn, ret)` when the loop has ended. -/
def operator_not_run (W : Nat) (pn : List Nat) : List Nat × List Nat :=
  forLoop 0 W operator_not_body (pn, base_uint_default W (fresh W))

/-- The value returned by `operator~()`. -/
def operator_not (W : Nat) (pn : List Nat) : List Nat :=
  (operator_not_run W pn).2

/-- Source: `base_uint &operator^=(const base_uint &b)`:
`for (...) pn[i] ^= b.pn[i];` -/
def operator_xor_eq (W : Nat) (pn b : List Nat) : List Nat :=
  forLoop 0 W (fun i p => p.set i (limb p i ^^^ limb b i)) pn

/-- Source: `base_uint &operator&=(const base_uint &b)`:
`for (...) pn[i] &= b.pn[i];` -/
def operator_and_eq (W : Nat) (pn b : List Nat) : List Nat :=
  forLoop 0 W (fun i p => p.set i (limb p i &&& limb b i)) pn

/-- Source: `base_uint &operator|=(const base_uint &b)`:
`for (...) pn[i] |= b.pn[i];` -/
def operator_or_eq (W : Nat) (pn b : List Nat) : List Nat :=
  forLoop 0 W (fun i p => p.set i (limb p i ||| limb b i)) pn

/-- Source: `operator|(a, b) { return base_uint(a) |= b; }` -/
def operator_or (W : Nat) (a b : List Nat) : List Nat :=
  operator_or_eq W (base_uint_copy W (fresh W) a) b

/-- Source: `operator&(a, b) { return base_uint(a) &= b; }` -/
def operator_and (W : Nat) (a b : List Nat) : List Nat :=
  operator_and_eq W (base_uint_copy W (fresh W) a) b

/-- Source: `operator^(a, b) { return base_uint(a) ^= b; }` -/
def operator_xor (W : Nat) (a b : List Nat) : List Nat :=
  operator_xor_eq W (base_uint_copy W (fresh W) a) b

/-- Source: `base_uint &operator^=(uint64_t b)`:
`pn[0] ^= (unsigned int)b; pn[1] ^= (unsigned int)(b >> 32);` -/
def operator_xor_eq_u64 (pn : List Nat) (b : Nat) : Option (List Nat) :=
  (store pn 0 (limb pn 0 ^^^ (b % 2 ^ 32))).bind fun pn0 =>
  store pn0 1 (limb pn0 1 ^^^ ((b >>> 32) % 2 ^ 32))

/-- Source: `base_uint &operator|=(uint64_t b)`:
`pn[0] |= (unsigned int)b; pn[1] |= (unsigned int)(b >> 32);` -/
def operator_or_eq_u64 (pn : List Nat) (b : Nat) : Option (List Nat) :=
  (store pn 0 (limb pn 0 ||| (b % 2 ^ 32))).bind fun pn0 =>
  store pn0 1 (limb pn0 1 ||| ((b >>> 32) % 2 ^ 32))

/-! ## Post-increment and post-decrement -/

/-- Source: `base_uint operator++(int)`:
`const base_uint ret = *this; ++(*this); return ret;`
The pair of the returned value and the receiver afterwards. -/
def operator_inc_post (W : Nat) (pn : List Nat) : List Nat × List Nat :=
  let ret := base_uint_copy W (fresh W) pn
  (ret, operator_inc W pn)

/-- Source: `base_uint operator--(int)`:
`const base_uint ret = *this; --(*this); return ret;`
The pair of the returned value and the receiver afterwards. -/
def operator_dec_post (W : Nat) (pn : List Nat) : List Nat × List Nat :=
  let ret := base_uint_copy W (fresh W) pn
  (ret, operator_dec W pn)

/-! ## Low 64 bits and equality -/

/-- Source: `uint64_t GetLow64() const`:
`static_assert(WIDTH >= 2, ...); return pn[0] | (uint64_t)pn[1] << 32;`
Below two limbs the member does not compile: `none`. -/
def GetLow64 (W : Nat) (pn : List Nat) : Option Nat :=
  if 2 ≤ W then some (limb pn 0 ||| ((limb pn 1 <<< 32) % 2 ^ 64)) else none

/-- The four bytes of a `uint32_t` in memory, least significant first when
`le` is true (little-endian machine), most significant first otherwise. -/
def bytes_of_limb (le : Bool) (x : Nat) : List Nat :=
  if le then [x % 256, x / 2 ^ 8 % 256, x / 2 ^ 16 % 256, x / 2 ^ 24 % 256]
  else [x / 2 ^ 24 % 256, x / 2 ^ 16 % 256, x / 2 ^ 8 % 256, x % 256]

/-- The bytes of the array `pn`, element after element. -/
def object_bytes (le : Bool) : List Nat → List Nat
  | [] => []
  | l :: ls => bytes_of_limb le l ++ object_bytes le ls

/-- The C library function `memcmp(s1, s2, n)`: the first `n` bytes are
compared in order as unsigned bytes; the result is negative, zero or positive
as the first differing byte of `s1` is below or above that of `s2`. -/
def memcmp : List Nat → List Nat → Nat → Int
  | a :: s1, b :: s2, n + 1 => if a < b then -1 else if b < a then 1 else memcmp s1 s2 n
  | _, _, _ => 0

/-- Source: `operator==(a, b) { return memcmp(a.pn, b.pn, sizeof(a.pn)) == 0; }`
with `sizeof(a.pn) = 4 * WIDTH`. -/
def operator_eqeq (le : Bool) (W : Nat) (a b : List Nat) : Bool :=
  memcmp (object_bytes le a) (object_bytes le b) (4 * W) == 0

/-- Source: `operator!=(a, b) { return memcmp(a.pn, b.pn, sizeof(a.pn)) != 0; }` -/
def operator_neq (le : Bool) (W : Nat) (a b : List Nat) : Bool :=
  memcmp (object_bytes le a) (object_bytes le b) (4 * W) != 0

/-! ## Lists as arrays -/

theorem limb_set (pn : List Nat) (i j v : Nat) :
    limb (pn.set i v) j = if i = j ∧ i < pn.length then v else limb pn j := by
  unfold limb
  rw [List.getD_eq_getElem?_getD, List.getD_eq_getElem?_getD, List.getElem?_set]
  by_cases hij : i = j
  · subst hij
    by_cases hl : i < pn.length
    · simp [hl]
    · have : pn[i]? = none := List.getElem?_eq_none (by omega)
      simp [hl, this]
  · simp [hij]

theorem limb_set_self (pn : List Nat) (i v : Nat) (h : i < pn.length) :
    limb (pn.set i v) i = v := by
  rw [limb_set]; simp [h]

theorem limb_set_ne (pn : List Nat) (i j v : Nat) (h : i ≠ j) :
    limb (pn.set i v) j = limb pn j := by
  rw [limb_set]; simp [h]

theorem limb_replicate_zero (W i : Nat) : limb (List.replicate W 0) i = 0 := by
  unfold limb
  rw [List.getD_eq_getElem?_getD, List.getElem?_replicate]
  split <;> rfl

theorem list_eq_of_limb (a b : List Nat) (hl : a.length = b.length)
    (h : ∀ i, i < a.length → limb a i = limb b i) : a = b := by
  apply List.ext_getElem hl
  intro i h1 h2
  have := h i h1
  unfold limb at this
  rw [List.getD_eq_getElem?_getD, List.getD_eq_getElem?_getD,
    List.getElem?_eq_getElem h1, List.getElem?_eq_getElem h2] at this
  simpa using this

/-! ## Loops -/

theorem forLoop_self {σ : Type} (lo : Nat) (body : Nat → σ → σ) (init : σ) :
    forLoop lo lo body init = init := by
  simp [forLoop]

theorem forLoop_succ {σ : Type} (lo hi : Nat) (h : lo ≤ hi) (body : Nat → σ → σ) (init : σ) :
    forLoop lo (hi + 1) body init = body hi (forLoop lo hi body init) := by
  unfold forLoop
  have e : hi + 1 - lo = (hi - lo) + 1 := by omega
  rw [e, List.range'_1_concat, List.foldl_append]
  have e2 : lo + (hi - lo) = hi := by omega
  simp [e2]

/-! ## The denoted number -/

theorem value_zero (pn : List Nat) : value 0 pn = 0 := by
  simp [value]

theorem value_succ (k : Nat) (pn : List Nat) :
    value (k + 1) pn = value k pn + limb pn k * 2 ^ (32 * k) := by
  simp [value, List.range_succ]

theorem pow_succ32 (k : Nat) : 2 ^ (32 * (k + 1)) = 2 ^ 32 * 2 ^ (32 * k) := by
  rw [Nat.mul_succ, Nat.pow_add, Nat.mul_comm]

theorem value_congr (k : Nat) (a b : List Nat) (h : ∀ i, i < k → limb a i = limb b i) :
    value k a = value k b := by
  induction k with
  | zero => simp [value_zero]
  | succ k ih =>
    rw [value_succ, value_succ, ih (fun i hi => h i (by omega)), h k (by omega)]

theorem value_set_ge (k i v : Nat) (pn : List Nat) (h : k ≤ i) :
    value k (pn.set i v) = value k pn :=
  value_congr k _ _ (fun j hj => limb_set_ne pn i j v (by omega))

theorem value_lt (k : Nat) (pn : List Nat) (h : ∀ i, i < k → limb pn i < 2 ^ 32) :
    value k pn < 2 ^ (32 * k) := by
  induction k with
  | zero => simp [value_zero]
  | succ k ih =>
    have h1 := ih (fun i hi => h i (by omega))
    have h2 := h k (by omega)
    rw [value_succ, pow_succ32]
    have h3 : limb pn k * 2 ^ (32 * k) ≤ (2 ^ 32 - 1) * 2 ^ (32 * k) :=
      Nat.mul_le_mul_right _ (by omega)
    have h4 : (2 ^ 32 - 1) * 2 ^ (32 * k) + 2 ^ (32 * k) = 2 ^ 32 * 2 ^ (32 * k) := by
      rw [Nat.sub_mul]; 
      have : 1 * 2 ^ (32 * k) ≤ 2 ^ 32 * 2 ^ (32 * k) := Nat.mul_le_mul_right _ (by norm_num)
      omega
    omega

theorem limb_eq_of_value_eq (k : Nat) (a b : List Nat)
    (ha : ∀ i, i < k → limb a i < 2 ^ 32) (hb : ∀ i, i < k → limb b i < 2 ^ 32)
    (h : value k a = value k b) : ∀ i, i < k → limb a i = limb b i := by
  induction k with
  | zero => intro i hi; omega
  | succ k ih =>
    have la := value_lt k a (fun i hi => ha i (by omega))
    have lb := value_lt k b (fun i hi => hb i (by omega))
    rw [value_succ, value_succ] at h
    have hm := congrArg (fun n => n % 2 ^ (32 * k)) h
    have hd := congrArg (fun n => n / 2 ^ (32 * k)) h
    simp only [Nat.add_mul_mod_self_right, Nat.mod_eq_of_lt la, Nat.mod_eq_of_lt lb] at hm
    have hp : 0 < 2 ^ (32 * k) := Nat.pow_pos (by norm_num)
    simp only [Nat.add_mul_div_right _ _ hp, Nat.div_eq_of_lt la, Nat.div_eq_of_lt lb,
      Nat.zero_add] at hd
    intro i hi
    by_cases hik : i = k
    · subst hik; exact hd
    · exact ih (fun i hi => ha i (by omega)) (fun i hi => hb i (by omega)) hm i (by omega)

/-- Two values of the same width that denote the same number are the same
list of limbs. -/
theorem value_inj (W : Nat) (a b : List Nat) (ha : IsValue W a) (hb : IsValue W b)
    (h : value W a = value W b) : a = b := by
  apply list_eq_of_limb a b (by rw [ha.1, hb.1])
  intro i hi
  exact limb_eq_of_value_eq W a b ha.2 hb.2 h i (by rw [← ha.1]; exact hi)

theorem value_lt_of_isValue (W : Nat) (a : List Nat) (ha : IsValue W a) :
    value W a < 2 ^ (32 * W) := value_lt W a ha.2

theorem bits_eq (BITS : Nat) (h : validBITS BITS) : BITS = 32 * WIDTH BITS := by
  unfold validBITS at h
  unfold WIDTH
  omega


/-! ## Constructors -/

theorem length_forLoop_set (lo hi : Nat) (f : Nat → List Nat → Nat) (mem : List Nat) :
    (forLoop lo hi (fun i pn => pn.set i (f i pn)) mem).length = mem.length := by
  by_cases h : lo ≤ hi
  · induction hi, h using Nat.le_induction with
    | base => rw [forLoop_self]
    | succ k hk ih => rw [forLoop_succ lo k hk, List.length_set, ih]
  · have e : hi - lo = 0 := by omega
    simp [forLoop, e]

/-- A loop `for (i = lo; i < hi; i++) pn[i] = g i;` with `g` not reading `pn`
leaves `g j` in every limb `lo ≤ j < hi` and keeps the others. -/
theorem limb_forLoop_set (lo hi : Nat) (g : Nat → Nat) (mem : List Nat) (hhi : hi ≤ mem.length)
    (j : Nat) :
    limb (forLoop lo hi (fun i pn => pn.set i (g i)) mem) j =
      if lo ≤ j ∧ j < hi then g j else limb mem j := by
  by_cases h : lo ≤ hi
  · induction hi, h using Nat.le_induction with
    | base =>
      have e : ¬ (lo ≤ j ∧ j < lo) := by omega
      rw [forLoop_self, if_neg e]
    | succ k hk ih =>
      have hl := length_forLoop_set lo k (fun i _ => g i) mem
      rw [forLoop_succ lo k hk, limb_set, ih (by omega), hl]
      by_cases hjk : k = j
      · subst hjk
        have : k < mem.length := by omega
        simp [this, hk]
      · have e : (lo ≤ j ∧ j < k + 1) ↔ (lo ≤ j ∧ j < k) := by omega
        simp [hjk, e]
  · have e : hi - lo = 0 := by omega
    have e2 : ¬ (lo ≤ j ∧ j < hi) := by omega
    simp [forLoop, e, e2]

theorem base_uint_default_eq (W : Nat) (mem : List Nat) (h : mem.length = W) :
    base_uint_default W mem = List.replicate W 0 := by
  unfold base_uint_default
  apply list_eq_of_limb
  · rw [length_forLoop_set 0 W (fun _ _ => 0), h, List.length_replicate]
  · intro i hi
    rw [length_forLoop_set 0 W (fun _ _ => 0), h] at hi
    rw [limb_forLoop_set 0 W (fun _ => 0) mem (by omega), limb_replicate_zero]
    simp [hi]

theorem base_uint_copy_eq (W : Nat) (mem b : List Nat) (h : mem.length = W) (hb : b.length = W) :
    base_uint_copy W mem b = b := by
  unfold base_uint_copy
  apply list_eq_of_limb
  · rw [length_forLoop_set 0 W (fun i _ => limb b i), h, hb]
  · intro i hi
    rw [length_forLoop_set 0 W (fun i _ => limb b i), h] at hi
    rw [limb_forLoop_set 0 W (fun i => limb b i) mem (by omega)]
    simp [hi]

theorem length_fresh (W : Nat) : (fresh W).length = W := by
  simp [fresh]

/-! ## Addition -/

theorem and_mask32 (n : Nat) : n &&& 0xffffffff = n % 2 ^ 32 := by
  have := Nat.and_pow_two_sub_one_eq_mod n 32
  simpa using this

/-- The state of the addition loop after `k` iterations. -/
theorem operator_plus_eq_inv (W : Nat) (x y : List Nat) (hx : IsValue W x) (hy : IsValue W y)
    (k : Nat) (hk : k ≤ W) :
    (forLoop 0 k (operator_plus_eq_body y) (x, 0)).1.length = W ∧
    (∀ j, k ≤ j → limb (forLoop 0 k (operator_plus_eq_body y) (x, 0)).1 j = limb x j) ∧
    (∀ j, j < k → limb (forLoop 0 k (operator_plus_eq_body y) (x, 0)).1 j < 2 ^ 32) ∧
    (forLoop 0 k (operator_plus_eq_body y) (x, 0)).2 ≤ 1 ∧
    value k (forLoop 0 k (operator_plus_eq_body y) (x, 0)).1 +
        (forLoop 0 k (operator_plus_eq_body y) (x, 0)).2 * 2 ^ (32 * k) =
      value k x + value k y := by
  induction k with
  | zero =>
    rw [forLoop_self]
    refine ⟨hx.1, fun _ _ => rfl, fun j hj => by omega, by simp, by simp [value_zero]⟩
  | succ k ih =>
    obtain ⟨hlen, hhi, hlo, hc, hv⟩ := ih (by omega)
    rw [forLoop_succ 0 k (Nat.zero_le k)]
    generalize forLoop 0 k (operator_plus_eq_body y) (x, 0) = s at hlen hhi hlo hc hv
    obtain ⟨pn, c⟩ := s
    simp only at hlen hhi hlo hc hv
    have hxk : limb pn k < 2 ^ 32 := by rw [hhi k (le_refl k)]; exact hx.2 k (by omega)
    have hyk : limb y k < 2 ^ 32 := hy.2 k (by omega)
    have hn : (c + limb pn k + limb y k) % 2 ^ 64 = c + limb pn k + limb y k :=
      Nat.mod_eq_of_lt (by omega)
    simp only [operator_plus_eq_body, hn, and_mask32, Nat.shiftRight_eq_div_pow]
    have hkl : k < pn.length := by omega
    refine ⟨by rw [List.length_set]; exact hlen, ?_, ?_, by omega, ?_⟩
    · intro j hj
      rw [limb_set_ne _ _ _ _ (by omega)]
      exact hhi j (by omega)
    · intro j hj
      by_cases hjk : k = j
      · subst hjk
        rw [limb_set_self _ _ _ hkl]
        exact Nat.mod_lt _ (by norm_num)
      · rw [limb_set_ne _ _ _ _ hjk]
        exact hlo j (by omega)
    · rw [value_succ, value_set_ge k k _ pn (le_refl k), limb_set_self _ _ _ hkl, pow_succ32,
        value_succ, value_succ, ← hhi k (le_refl k)]
      have hdm := Nat.div_add_mod (c + limb pn k + limb y k) (2 ^ 32)
      generalize (c + limb pn k + limb y k) % 2 ^ 32 = r at hdm ⊢
      generalize (c + limb pn k + limb y k) / 2 ^ 32 = q at hdm ⊢
      generalize 2 ^ (32 * k) = P at hv ⊢
      have e1 : r * P + q * (2 ^ 32 * P) = (2 ^ 32 * q + r) * P := by ring
      have e2 : (2 ^ 32 * q + r) * P = c * P + limb pn k * P + limb y k * P := by
        rw [hdm]; ring
      omega

theorem operator_plus_eq_isValue (W : Nat) (x y : List Nat) (hx : IsValue W x)
    (hy : IsValue W y) : IsValue W (operator_plus_eq W x y) := by
  obtain ⟨hlen, _, hlo, _, _⟩ := operator_plus_eq_inv W x y hx hy W (le_refl W)
  exact ⟨hlen, hlo⟩

theorem operator_plus_eq_value (W : Nat) (x y : List Nat) (hx : IsValue W x)
    (hy : IsValue W y) :
    value W (operator_plus_eq W x y) = (value W x + value W y) % 2 ^ (32 * W) := by
  obtain ⟨_, _, hlo, hc, hv⟩ := operator_plus_eq_inv W x y hx hy W (le_refl W)
  have hlt := value_lt W _ hlo
  unfold operator_plus_eq
  rw [← hv, Nat.add_mul_mod_self_right, Nat.mod_eq_of_lt hlt]


/-! ## Increment and decrement -/

theorem value_set (W i v : Nat) (pn : List Nat) (hi : i < W) (hl : i < pn.length) :
    value W (pn.set i v) + limb pn i * 2 ^ (32 * i) = value W pn + v * 2 ^ (32 * i) := by
  induction W with
  | zero => omega
  | succ k ih =>
    rw [value_succ, value_succ]
    by_cases hik : i = k
    · subst hik
      rw [value_set_ge i i v pn (le_refl i), limb_set_self pn i v hl]
      omega
    · rw [limb_set_ne pn i k v hik]
      have := ih (by omega)
      omega

/-- The increment loop entered at index `i` adds `2^(32*i)`, up to a carry out
of the top limb; the iteration budget `W - i` is never exhausted early. -/
theorem operator_inc_loop_value (W : Nat) : ∀ (fuel i : Nat) (pn : List Nat),
    IsValue W pn → i ≤ W → W - i ≤ fuel →
    IsValue W (operator_inc_loop W fuel i pn) ∧
    ∃ c, c ≤ 1 ∧ value W (operator_inc_loop W fuel i pn) + c * 2 ^ (32 * W) =
      value W pn + 2 ^ (32 * i) := by
  intro fuel
  induction fuel with
  | zero =>
    intro i pn hp hi hf
    have e : i = W := by omega
    subst e
    exact ⟨hp, 1, le_refl 1, by simp [operator_inc_loop]⟩
  | succ fuel ih =>
    intro i pn hp hi hf
    unfold operator_inc_loop
    by_cases hiW : i < W
    · have hl : i < pn.length := by rw [hp.1]; exact hiW
      have hb := hp.2 i hiW
      have hvs := value_set W i ((limb pn i + 1) % 2 ^ 32) pn hiW hl
      have hval : IsValue W (pn.set i ((limb pn i + 1) % 2 ^ 32)) := by
        refine ⟨by rw [List.length_set]; exact hp.1, fun j hj => ?_⟩
        by_cases hij : i = j
        · subst hij; rw [limb_set_self pn i _ hl]; exact Nat.mod_lt _ (by norm_num)
        · rw [limb_set_ne pn i j _ hij]; exact hp.2 j hj
      simp only [hiW, if_true]
      by_cases hv : (limb pn i + 1) % 2 ^ 32 = 0
      · simp only [hv, if_true]
        rw [hv] at hvs hval
        obtain ⟨h1, c, hc, h2⟩ := ih (i + 1) _ hval (by omega) (by omega)
        refine ⟨h1, c, hc, ?_⟩
        have hmax : limb pn i = 2 ^ 32 - 1 := by omega
        rw [pow_succ32] at h2
        rw [hmax] at hvs
        generalize 2 ^ (32 * i) = P at h2 hvs ⊢
        have e : (2 ^ 32 - 1) * P + P = 2 ^ 32 * P := by
          have : (2 ^ 32 - 1 + 1) * P = 2 ^ 32 * P := by norm_num
          rw [Nat.add_mul] at this
          omega
        omega
      · simp only [hv, if_false]
        refine ⟨hval, 0, by omega, ?_⟩
        have hlt : (limb pn i + 1) % 2 ^ 32 = limb pn i + 1 := by omega
        rw [hlt] at hvs ⊢
        rw [Nat.add_mul, Nat.one_mul] at hvs
        generalize 2 ^ (32 * i) = P at hvs ⊢
        omega
    · have e : i = W := by omega
      subst e
      simp only [hiW, if_false]
      exact ⟨hp, 1, le_refl 1, by simp⟩

/-- The decrement loop entered at index `i` subtracts `2^(32*i)`, up to a
borrow out of the top limb. -/
theorem operator_dec_loop_value (W : Nat) : ∀ (fuel i : Nat) (pn : List Nat),
    IsValue W pn → i ≤ W → W - i ≤ fuel →
    IsValue W (operator_dec_loop W fuel i pn) ∧
    ∃ c, c ≤ 1 ∧ value W (operator_dec_loop W fuel i pn) + 2 ^ (32 * i) =
      value W pn + c * 2 ^ (32 * W) := by
  intro fuel
  induction fuel with
  | zero =>
    intro i pn hp hi hf
    have e : i = W := by omega
    subst e
    exact ⟨hp, 1, le_refl 1, by simp [operator_dec_loop]⟩
  | succ fuel ih =>
    intro i pn hp hi hf
    unfold operator_dec_loop
    by_cases hiW : i < W
    · have hl : i < pn.length := by rw [hp.1]; exact hiW
      have hb := hp.2 i hiW
      have hvs := value_set W i ((limb pn i + 2 ^ 32 - 1) % 2 ^ 32) pn hiW hl
      have hval : IsValue W (pn.set i ((limb pn i + 2 ^ 32 - 1) % 2 ^ 32)) := by
        refine ⟨by rw [List.length_set]; exact hp.1, fun j hj => ?_⟩
        by_cases hij : i = j
        · subst hij; rw [limb_set_self pn i _ hl]; exact Nat.mod_lt _ (by norm_num)
        · rw [limb_set_ne pn i j _ hij]; exact hp.2 j hj
      simp only [hiW, if_true]
      by_cases hv : (limb pn i + 2 ^ 32 - 1) % 2 ^ 32 = 4294967295
      · simp only [hv, if_true]
        rw [hv] at hvs hval
        obtain ⟨h1, c, hc, h2⟩ := ih (i + 1) _ hval (by omega) (by omega)
        refine ⟨h1, c, hc, ?_⟩
        have hzero : limb pn i = 0 := by omega
        rw [pow_succ32] at h2
        rw [hzero] at hvs
        generalize 2 ^ (32 * i) = P at h2 hvs ⊢
        have e : 4294967295 * P + P = 2 ^ 32 * P := by
          have : (4294967295 + 1) * P = 2 ^ 32 * P := by norm_num
          rw [Nat.add_mul] at this
          omega
        omega
      · simp only [hv, if_false]
        refine ⟨hval, 0, by omega, ?_⟩
        have hpos : 0 < limb pn i := by omega
        have hlt : (limb pn i + 2 ^ 32 - 1) % 2 ^ 32 = limb pn i - 1 := by omega
        rw [hlt] at hvs ⊢
        have e : limb pn i * 2 ^ (32 * i) = (limb pn i - 1) * 2 ^ (32 * i) + 2 ^ (32 * i) := by
          have : limb pn i = (limb pn i - 1) + 1 := by omega
          conv_lhs => rw [this, Nat.add_mul, Nat.one_mul]
        generalize 2 ^ (32 * i) = P at hvs e ⊢
        omega
    · have e : i = W := by omega
      subst e
      simp only [hiW, if_false]
      exact ⟨hp, 1, le_refl 1, by simp⟩

theorem operator_inc_isValue (W : Nat) (x : List Nat) (hx : IsValue W x) :
    IsValue W (operator_inc W x) :=
  (operator_inc_loop_value W W 0 x hx (Nat.zero_le W) (by omega)).1

theorem operator_inc_value (W : Nat) (x : List Nat) (hx : IsValue W x) :
    value W (operator_inc W x) = (value W x + 1) % 2 ^ (32 * W) := by
  obtain ⟨h1, c, hc, h2⟩ := operator_inc_loop_value W W 0 x hx (Nat.zero_le W) (by omega)
  have hlt := value_lt_of_isValue W _ h1
  simp only [Nat.mul_zero, Nat.pow_zero] at h2
  unfold operator_inc
  rw [← h2, Nat.add_mul_mod_self_right, Nat.mod_eq_of_lt hlt]

theorem operator_dec_isValue (W : Nat) (x : List Nat) (hx : IsValue W x) :
    IsValue W (operator_dec W x) :=
  (operator_dec_loop_value W W 0 x hx (Nat.zero_le W) (by omega)).1

theorem operator_dec_value (W : Nat) (x : List Nat) (hx : IsValue W x) :
    value W (operator_dec W x) = (value W x + 2 ^ (32 * W) - 1) % 2 ^ (32 * W) := by
  obtain ⟨h1, c, hc, h2⟩ := operator_dec_loop_value W W 0 x hx (Nat.zero_le W) (by omega)
  have hlt := value_lt_of_isValue W _ h1
  have hxlt := value_lt_of_isValue W _ hx
  simp only [Nat.mul_zero, Nat.pow_zero] at h2
  unfold operator_dec
  generalize 2 ^ (32 * W) = M at *
  generalize value W (operator_dec_loop W W 0 x) = r at *
  have hc' : c = 0 ∨ c = 1 := by omega
  rcases hc' with rfl | rfl
  · simp only [Nat.zero_mul, Nat.add_zero] at h2
    have e : value W x + M - 1 = r + M := by omega
    rw [e, Nat.add_mod_right, Nat.mod_eq_of_lt hlt]
  · simp only [Nat.one_mul] at h2
    have e : value W x + M - 1 = r := by omega
    rw [e, Nat.mod_eq_of_lt hlt]


/-- Shape of the increment ripple entered at index `i`: the limbs `i ≤ j < k`
that hold `0xffffffff` wrap to zero, limb `k` (the first one that does not
wrap, when there is one) is incremented, every other limb is kept. -/
theorem operator_inc_loop_limbs (W : Nat) : ∀ (fuel i k : Nat) (pn : List Nat),
    pn.length = W → i ≤ k → k ≤ W → W - i ≤ fuel →
    (∀ j, i ≤ j → j < k → limb pn j = 4294967295) →
    (k < W → limb pn k < 4294967295) →
    ∀ j, limb (operator_inc_loop W fuel i pn) j =
      if i ≤ j ∧ j < k then 0 else if j = k ∧ k < W then limb pn k + 1 else limb pn j := by
  intro fuel
  induction fuel with
  | zero =>
    intro i k pn hl hik hkW hf hmax hk j
    have e1 : ¬ (i ≤ j ∧ j < k) := by omega
    have e2 : ¬ (j = k ∧ k < W) := by omega
    simp only [operator_inc_loop, if_neg e1, if_neg e2]
  | succ fuel ih =>
    intro i k pn hl hik hkW hf hmax hk j
    unfold operator_inc_loop
    by_cases hiW : i < W
    · have hli : i < pn.length := by omega
      simp only [hiW, if_true]
      by_cases hik2 : i = k
      · subst hik2
        have hb := hk hiW
        have hv : (limb pn i + 1) % 2 ^ 32 = limb pn i + 1 := by omega
        have hv0 : ¬ (limb pn i + 1 = 0) := by omega
        have e1 : ¬ (i ≤ j ∧ j < i) := by omega
        simp only [hv, hv0, if_false, if_neg e1]
        rw [limb_set]
        by_cases hji : j = i
        · subst hji; simp [hiW, hli]
        · have e3 : ¬ (i = j ∧ i < pn.length) := by omega
          have e4 : ¬ (j = i ∧ i < W) := by omega
          rw [if_neg e3, if_neg e4]
      · have hb := hmax i (le_refl i) (by omega)
        have hv : (limb pn i + 1) % 2 ^ 32 = 0 := by omega
        simp only [hv, if_true]
        rw [ih (i + 1) k (pn.set i 0) (by rw [List.length_set]; exact hl) (by omega) hkW
          (by omega)
          (fun j' h1 h2 => by rw [limb_set_ne pn i j' 0 (by omega)]; exact hmax j' (by omega) h2)
          (fun h => by rw [limb_set_ne pn i k 0 hik2]; exact hk h) j]
        rw [limb_set_ne pn i k 0 hik2, limb_set]
        by_cases hji : j = i
        · subst hji
          have e1 : ¬ (j + 1 ≤ j ∧ j < k) := by omega
          have e2 : ¬ (j = k ∧ k < W) := by omega
          have e3 : j ≤ j ∧ j < k := by omega
          simp [e1, e2, e3, hli]
        · have e3 : ¬ (i = j ∧ i < pn.length) := by omega
          have e4 : (i + 1 ≤ j ∧ j < k) ↔ (i ≤ j ∧ j < k) := by omega
          simp only [if_neg e3, e4]
    · have e1 : ¬ (i ≤ j ∧ j < k) := by omega
      have e2 : ¬ (j = k ∧ k < W) := by omega
      simp only [hiW, if_false, if_neg e1, if_neg e2]

/-- Shape of the decrement ripple entered at index `i`: the limbs `i ≤ j < k`
that hold zero wrap to `0xffffffff`, limb `k` (the first nonzero one, when
there is one) is decremented, every other limb is kept. -/
theorem operator_dec_loop_limbs (W : Nat) : ∀ (fuel i k : Nat) (pn : List Nat),
    pn.length = W → i ≤ k → k ≤ W → W - i ≤ fuel →
    (∀ j, i ≤ j → j < k → limb pn j = 0) →
    (k < W → 0 < limb pn k ∧ limb pn k < 2 ^ 32) →
    ∀ j, limb (operator_dec_loop W fuel i pn) j =
      if i ≤ j ∧ j < k then 4294967295
      else if j = k ∧ k < W then limb pn k - 1 else limb pn j := by
  intro fuel
  induction fuel with
  | zero =>
    intro i k pn hl hik hkW hf hz hk j
    have e1 : ¬ (i ≤ j ∧ j < k) := by omega
    have e2 : ¬ (j = k ∧ k < W) := by omega
    simp only [operator_dec_loop, if_neg e1, if_neg e2]
  | succ fuel ih =>
    intro i k pn hl hik hkW hf hz hk j
    unfold operator_dec_loop
    by_cases hiW : i < W
    · have hli : i < pn.length := by omega
      simp only [hiW, if_true]
      by_cases hik2 : i = k
      · subst hik2
        have hb := hk hiW
        have hv : (limb pn i + 2 ^ 32 - 1) % 2 ^ 32 = limb pn i - 1 := by omega
        have hv0 : ¬ (limb pn i - 1 = 4294967295) := by omega
        have e1 : ¬ (i ≤ j ∧ j < i) := by omega
        simp only [hv, hv0, if_false, if_neg e1]
        rw [limb_set]
        by_cases hji : j = i
        · subst hji; simp [hiW, hli]
        · have e3 : ¬ (i = j ∧ i < pn.length) := by omega
          have e4 : ¬ (j = i ∧ i < W) := by omega
          rw [if_neg e3, if_neg e4]
      · have hb := hz i (le_refl i) (by omega)
        have hv : (limb pn i + 2 ^ 32 - 1) % 2 ^ 32 = 4294967295 := by omega
        simp only [hv, if_true]
        rw [ih (i + 1) k (pn.set i 4294967295) (by rw [List.length_set]; exact hl) (by omega) hkW
          (by omega)
          (fun j' h1 h2 => by
            rw [limb_set_ne pn i j' 4294967295 (by omega)]; exact hz j' (by omega) h2)
          (fun h => by rw [limb_set_ne pn i k 4294967295 hik2]; exact hk h) j]
        rw [limb_set_ne pn i k 4294967295 hik2, limb_set]
        by_cases hji : j = i
        · subst hji
          have e1 : ¬ (j + 1 ≤ j ∧ j < k) := by omega
          have e2 : ¬ (j = k ∧ k < W) := by omega
          have e3 : j ≤ j ∧ j < k := by omega
          simp [e1, e2, e3, hli]
        · have e3 : ¬ (i = j ∧ i < pn.length) := by omega
          have e4 : (i + 1 ≤ j ∧ j < k) ↔ (i ≤ j ∧ j < k) := by omega
          simp only [if_neg e3, e4]
    · have e1 : ¬ (i ≤ j ∧ j < k) := by omega
      have e2 : ¬ (j = k ∧ k < W) := by omega
      simp only [hiW, if_false, if_neg e1, if_neg e2]


/-- The iteration budget of the increment loop is never what stops it: any
budget of at least `W - i` gives the result of the budget `W - i`. -/
theorem operator_inc_loop_fuel (W : Nat) : ∀ (fuel i : Nat) (pn : List Nat),
    W - i ≤ fuel → operator_inc_loop W fuel i pn = operator_inc_loop W (W - i) i pn := by
  intro fuel
  induction fuel with
  | zero =>
    intro i pn hf
    have e : W - i = 0 := by omega
    rw [e]
  | succ fuel ih =>
    intro i pn hf
    by_cases hiW : i < W
    · have e : W - i = (W - (i + 1)) + 1 := by omega
      rw [e]
      unfold operator_inc_loop
      simp only [hiW, if_true]
      split
      · exact ih (i + 1) _ (by omega)
      · rfl
    · have e : W - i = 0 := by omega
      rw [e]
      simp [operator_inc_loop, hiW]

/-- The iteration budget of the decrement loop is never what stops it. -/
theorem operator_dec_loop_fuel (W : Nat) : ∀ (fuel i : Nat) (pn : List Nat),
    W - i ≤ fuel → operator_dec_loop W fuel i pn = operator_dec_loop W (W - i) i pn := by
  intro fuel
  induction fuel with
  | zero =>
    intro i pn hf
    have e : W - i = 0 := by omega
    rw [e]
  | succ fuel ih =>
    intro i pn hf
    by_cases hiW : i < W
    · have e : W - i = (W - (i + 1)) + 1 := by omega
      rw [e]
      unfold operator_dec_loop
      simp only [hiW, if_true]
      split
      · exact ih (i + 1) _ (by omega)
      · rfl
    · have e : W - i = 0 := by omega
      rw [e]
      simp [operator_dec_loop, hiW]

/-! ## Zero, complement, negation -/

theorem isValue_zero (W : Nat) : IsValue W (List.replicate W 0) :=
  ⟨List.length_replicate W 0, fun i _ => by rw [limb_replicate_zero]; norm_num⟩

theorem value_replicate_zero (k W : Nat) : value k (List.replicate W 0) = 0 := by
  induction k with
  | zero => exact value_zero _
  | succ k ih => rw [value_succ, ih, limb_replicate_zero]; simp

/-- A list whose limbs are the 32-bit complements of the limbs of `x` denotes
`2^(32*k) - 1 - value x` on its first `k` limbs. -/
theorem value_not32 (k : Nat) (c x : List Nat) (hc : ∀ i, i < k → limb c i = not32 (limb x i))
    (hx : ∀ i, i < k → limb x i < 2 ^ 32) :
    value k c + value k x + 1 = 2 ^ (32 * k) := by
  induction k with
  | zero => simp [value_zero]
  | succ k ih =>
    have h1 := ih (fun i hi => hc i (by omega)) (fun i hi => hx i (by omega))
    have h2 := hx k (by omega)
    have h3 : limb c k + limb x k = 2 ^ 32 - 1 := by
      rw [hc k (by omega)]; unfold not32; omega
    rw [value_succ, value_succ, pow_succ32]
    have h4 : (limb c k + limb x k) * 2 ^ (32 * k) + 2 ^ (32 * k) = 2 ^ 32 * 2 ^ (32 * k) := by
      rw [h3]
      have : (2 ^ 32 - 1 + 1) * 2 ^ (32 * k) = 2 ^ 32 * 2 ^ (32 * k) := by norm_num
      rw [Nat.add_mul, Nat.one_mul] at this
      exact this
    rw [Nat.add_mul] at h4
    generalize 2 ^ (32 * k) = P at h1 h4 ⊢
    generalize 2 ^ 32 * P = Q at h4 ⊢
    omega

/-- The value `ret` of `operator-()` just before `++ret`: the limb-wise
complement of `x`. -/
theorem complement_limbs (W : Nat) (x : List Nat) :
    (forLoop 0 W (fun i r => r.set i (not32 (limb x i))) (base_uint_default W (fresh W))).length
      = W ∧
    ∀ j, j < W → limb (forLoop 0 W (fun i r => r.set i (not32 (limb x i)))
      (base_uint_default W (fresh W))) j = not32 (limb x j) := by
  have hd := base_uint_default_eq W (fresh W) (length_fresh W)
  rw [hd]
  refine ⟨?_, fun j hj => ?_⟩
  · rw [length_forLoop_set 0 W (fun i _ => not32 (limb x i)), List.length_replicate]
  · rw [limb_forLoop_set 0 W (fun i => not32 (limb x i)) _ (by rw [List.length_replicate])]
    simp [hj]

theorem not32_lt (x : Nat) : not32 x < 2 ^ 32 := by
  unfold not32; omega

theorem operator_neg_isValue (W : Nat) (x : List Nat) :
    IsValue W (operator_neg W x) := by
  obtain ⟨h1, h2⟩ := complement_limbs W x
  exact operator_inc_isValue W _ ⟨h1, fun i hi => by rw [h2 i hi]; exact not32_lt _⟩

theorem operator_neg_value (W : Nat) (x : List Nat) (hx : IsValue W x) :
    value W (operator_neg W x) = (2 ^ (32 * W) - value W x) % 2 ^ (32 * W) := by
  obtain ⟨h1, h2⟩ := complement_limbs W x
  have hv := value_not32 W _ x h2 hx.2
  unfold operator_neg
  simp only
  rw [operator_inc_value W _ ⟨h1, fun i hi => by rw [h2 i hi]; exact not32_lt _⟩]
  congr 1
  omega

/-! ## Subtraction -/

theorem add_sub_mod (a b M : Nat) (hb : b ≤ M) : (a + (M - b) % M) % M = (a + M - b) % M := by
  rw [Nat.add_mod_mod]
  congr 1
  omega

theorem sub_add_mod (a b M : Nat) (hb : b ≤ M) : ((a + M - b) % M + b) % M = a % M := by
  rw [Nat.mod_add_mod]
  have : a + M - b + b = a + M := by omega
  rw [this, Nat.add_mod_right]

theorem cast_sub_mod (a b M : Nat) (hb : b ≤ M) :
    (((a + M - b) % M : Nat) : Int) = ((a : Int) - (b : Int)) % (M : Int) := by
  have e : ((a + M - b : Nat) : Int) = ((a : Int) - (b : Int)) + (M : Int) := by
    rw [Nat.cast_sub (by omega)]; push_cast; ring
  rw [Int.natCast_mod, e, Int.add_emod_self]

theorem operator_minus_eq_isValue (W : Nat) (x y : List Nat) (hx : IsValue W x) :
    IsValue W (operator_minus_eq W x y) :=
  operator_plus_eq_isValue W x _ hx (operator_neg_isValue W y)

theorem operator_minus_eq_value (W : Nat) (x y : List Nat) (hx : IsValue W x)
    (hy : IsValue W y) :
    value W (operator_minus_eq W x y) =
      (value W x + 2 ^ (32 * W) - value W y) % 2 ^ (32 * W) := by
  unfold operator_minus_eq
  rw [operator_plus_eq_value W x _ hx (operator_neg_isValue W y), operator_neg_value W y hy,
    add_sub_mod _ _ _ (le_of_lt (value_lt_of_isValue W y hy))]

/-- The state of the borrow-chain subtraction after `k` limbs. -/
theorem spec_borrow_sub_inv (W : Nat) (x y : List Nat) (hx : IsValue W x) (hy : IsValue W y)
    (k : Nat) (hk : k ≤ W) :
    (forLoop 0 k (spec_borrow_sub_body x y) (x, 0)).1.length = W ∧
    (∀ j, j < W → limb (forLoop 0 k (spec_borrow_sub_body x y) (x, 0)).1 j < 2 ^ 32) ∧
    (forLoop 0 k (spec_borrow_sub_body x y) (x, 0)).2 ≤ 1 ∧
    value k (forLoop 0 k (spec_borrow_sub_body x y) (x, 0)).1 + value k y =
      value k x + (forLoop 0 k (spec_borrow_sub_body x y) (x, 0)).2 * 2 ^ (32 * k) := by
  induction k with
  | zero =>
    rw [forLoop_self]
    exact ⟨hx.1, hx.2, by simp, by simp [value_zero]⟩
  | succ k ih =>
    obtain ⟨hlen, hlo, hc, hv⟩ := ih (by omega)
    rw [forLoop_succ 0 k (Nat.zero_le k)]
    generalize forLoop 0 k (spec_borrow_sub_body x y) (x, 0) = s at hlen hlo hc hv
    obtain ⟨pn, c⟩ := s
    simp only at hlen hlo hc hv
    have hxk : limb x k < 2 ^ 32 := hx.2 k (by omega)
    have hyk : limb y k < 2 ^ 32 := hy.2 k (by omega)
    have hkl : k < pn.length := by omega
    simp only [spec_borrow_sub_body]
    refine ⟨by rw [List.length_set]; exact hlen, ?_, by split <;> omega, ?_⟩
    · intro j hj
      by_cases hjk : k = j
      · subst hjk
        rw [limb_set_self _ _ _ hkl]
        exact Nat.mod_lt _ (by norm_num)
      · rw [limb_set_ne _ _ _ _ hjk]
        exact hlo j hj
    · rw [value_succ, value_set_ge k k _ pn (le_refl k), limb_set_self _ _ _ hkl, pow_succ32,
        value_succ, value_succ]
      generalize 2 ^ (32 * k) = P at hv ⊢
      by_cases hlt : limb x k < limb y k + c
      · have hd : (limb x k + 2 ^ 32 - (limb y k + c)) % 2 ^ 32 =
            limb x k + 2 ^ 32 - (limb y k + c) := by omega
        rw [hd, if_pos hlt]
        have e : (limb x k + 2 ^ 32 - (limb y k + c)) * P + limb y k * P + c * P =
            limb x k * P + 1 * (2 ^ 32 * P) := by
          have : limb x k + 2 ^ 32 - (limb y k + c) + limb y k + c = limb x k + 2 ^ 32 := by
            omega
          calc (limb x k + 2 ^ 32 - (limb y k + c)) * P + limb y k * P + c * P
              = (limb x k + 2 ^ 32 - (limb y k + c) + limb y k + c) * P := by ring
            _ = limb x k * P + 1 * (2 ^ 32 * P) := by rw [this]; ring
        omega
      · have hd : (limb x k + 2 ^ 32 - (limb y k + c)) % 2 ^ 32 =
            limb x k - (limb y k + c) := by omega
        rw [hd, if_neg hlt]
        have e : (limb x k - (limb y k + c)) * P + limb y k * P + c * P = limb x k * P := by
          have : limb x k - (limb y k + c) + limb y k + c = limb x k := by omega
          calc (limb x k - (limb y k + c)) * P + limb y k * P + c * P
              = (limb x k - (limb y k + c) + limb y k + c) * P := by ring
            _ = limb x k * P := by rw [this]
        omega

theorem spec_borrow_sub_isValue (W : Nat) (x y : List Nat) (hx : IsValue W x)
    (hy : IsValue W y) : IsValue W (spec_borrow_sub W x y) := by
  obtain ⟨h1, h2, _, _⟩ := spec_borrow_sub_inv W x y hx hy W (le_refl W)
  exact ⟨h1, h2⟩

theorem spec_borrow_sub_value (W : Nat) (x y : List Nat) (hx : IsValue W x)
    (hy : IsValue W y) :
    value W (spec_borrow_sub W x y) =
      (value W x + 2 ^ (32 * W) - value W y) % 2 ^ (32 * W) := by
  obtain ⟨h1, h2, hc, hv⟩ := spec_borrow_sub_inv W x y hx hy W (le_refl W)
  have hlt := value_lt W _ h2
  have hylt := value_lt_of_isValue W y hy
  unfold spec_borrow_sub
  generalize value W (forLoop 0 W (spec_borrow_sub_body x y) (x, 0)).1 = r at hv hlt ⊢
  generalize (forLoop 0 W (spec_borrow_sub_body x y) (x, 0)).2 = c at hv hc
  generalize 2 ^ (32 * W) = M at *
  have hc' : c = 0 ∨ c = 1 := by omega
  rcases hc' with rfl | rfl
  · simp only [Nat.zero_mul, Nat.add_zero] at hv
    have e : value W x + M - value W y = r + M := by omega
    rw [e, Nat.add_mod_right, Nat.mod_eq_of_lt hlt]
  · simp only [Nat.one_mul] at hv
    have e : value W x + M - value W y = r := by omega
    rw [e, Nat.mod_eq_of_lt hlt]


theorem operator_plus_unfold (W : Nat) (a b : List Nat) (ha : a.length = W) :
    operator_plus W a b = operator_plus_eq W a b := by
  unfold operator_plus
  rw [base_uint_copy_eq W (fresh W) a (length_fresh W) ha]

theorem operator_minus_unfold (W : Nat) (a b : List Nat) (ha : a.length = W) :
    operator_minus W a b = operator_minus_eq W a b := by
  unfold operator_minus
  rw [base_uint_copy_eq W (fresh W) a (length_fresh W) ha]

theorem limb_replicate (W v i : Nat) (hi : i < W) : limb (List.replicate W v) i = v := by
  unfold limb
  rw [List.getD_eq_getElem?_getD, List.getElem?_replicate]
  simp [hi]

/-! ## Construction from a 64-bit operand -/

theorem limb_cons_zero (a : Nat) (l : List Nat) : limb (a :: l) 0 = a := rfl

theorem limb_cons_succ (a : Nat) (l : List Nat) (i : Nat) : limb (a :: l) (i + 1) = limb l i :=
  rfl

theorem base_uint_u64_eq_assign (W : Nat) (mem : List Nat) (b : Nat) :
    base_uint_u64 W mem b = operator_assign_u64 W mem b := rfl

/-- With at least two limbs the three statements of `operator=(uint64_t)` stay
inside the array and leave the low half, the high half and zeros, whatever
the receiver held. -/
theorem operator_assign_u64_eq (W : Nat) (pn : List Nat) (b : Nat) (hl : pn.length = W)
    (hW : 2 ≤ W) :
    operator_assign_u64 W pn b =
      some (b % 2 ^ 32 :: (b >>> 32) % 2 ^ 32 :: List.replicate (W - 2) 0) := by
  unfold operator_assign_u64 store
  have h0 : 0 < pn.length := by omega
  have h1 : 1 < (pn.set 0 (b % 2 ^ 32)).length := by rw [List.length_set]; omega
  simp only [h0, h1, if_true, Option.some_bind]
  congr 1
  have hlen : ((pn.set 0 (b % 2 ^ 32)).set 1 ((b >>> 32) % 2 ^ 32)).length = W := by
    rw [List.length_set, List.length_set]; exact hl
  apply list_eq_of_limb
  · rw [length_forLoop_set 2 W (fun _ _ => 0), hlen]
    simp only [List.length_cons, List.length_replicate]
    omega
  · intro i hi
    rw [length_forLoop_set 2 W (fun _ _ => 0), hlen] at hi
    rw [limb_forLoop_set 2 W (fun _ => 0) _ (by rw [hlen])]
    match i, hi with
    | 0, _ =>
      have e : ¬ (2 ≤ 0 ∧ 0 < W) := by omega
      rw [if_neg e, limb_set_ne _ 1 0 _ (by omega), limb_set_self _ 0 _ h0, limb_cons_zero]
    | 1, _ =>
      have e : ¬ (2 ≤ 1 ∧ 1 < W) := by omega
      rw [if_neg e, limb_set_self _ 1 _ h1, limb_cons_succ, limb_cons_zero]
    | j + 2, hj =>
      have e : 2 ≤ j + 2 ∧ j + 2 < W := by omega
      rw [if_pos e, limb_cons_succ, limb_cons_succ, limb_replicate_zero]

theorem base_uint_u64_eq (W : Nat) (mem : List Nat) (b : Nat) (hl : mem.length = W)
    (hW : 2 ≤ W) :
    base_uint_u64 W mem b =
      some (b % 2 ^ 32 :: (b >>> 32) % 2 ^ 32 :: List.replicate (W - 2) 0) :=
  operator_assign_u64_eq W mem b hl hW

theorem value_high_zero (k W : Nat) (pn : List Nat) (hk : k ≤ W)
    (h : ∀ j, k ≤ j → j < W → limb pn j = 0) : value W pn = value k pn := by
  induction W, hk using Nat.le_induction with
  | base => rfl
  | succ n hn ih =>
    rw [value_succ, h n hn (by omega), ih (fun j h1 h2 => h j h1 (by omega))]
    simp

/-- The limbs and the denoted number of the value built from a 64-bit `b`. -/
theorem u64_limbs_spec (W : Nat) (b : Nat) (hW : 2 ≤ W) (hb : b < 2 ^ 64) :
    IsValue W (b % 2 ^ 32 :: (b >>> 32) % 2 ^ 32 :: List.replicate (W - 2) 0) ∧
    limb (b % 2 ^ 32 :: (b >>> 32) % 2 ^ 32 :: List.replicate (W - 2) 0) 0 = b % 2 ^ 32 ∧
    limb (b % 2 ^ 32 :: (b >>> 32) % 2 ^ 32 :: List.replicate (W - 2) 0) 1 = b / 2 ^ 32 ∧
    (∀ j, 2 ≤ j → j < W →
      limb (b % 2 ^ 32 :: (b >>> 32) % 2 ^ 32 :: List.replicate (W - 2) 0) j = 0) ∧
    value W (b % 2 ^ 32 :: (b >>> 32) % 2 ^ 32 :: List.replicate (W - 2) 0) = b := by
  have hhi : (b >>> 32) % 2 ^ 32 = b / 2 ^ 32 := by
    rw [Nat.shiftRight_eq_div_pow]; omega
  have hz : ∀ j, 2 ≤ j →
      limb (b % 2 ^ 32 :: (b >>> 32) % 2 ^ 32 :: List.replicate (W - 2) 0) j = 0 := by
    intro j hj
    obtain ⟨i, rfl⟩ : ∃ i, j = i + 2 := ⟨j - 2, by omega⟩
    rw [limb_cons_succ, limb_cons_succ, limb_replicate_zero]
  refine ⟨⟨?_, ?_⟩, limb_cons_zero _ _, ?_, fun j h1 _ => hz j h1, ?_⟩
  · simp only [List.length_cons, List.length_replicate]; omega
  · intro i _
    match i with
    | 0 => rw [limb_cons_zero]; exact Nat.mod_lt _ (by norm_num)
    | 1 => rw [limb_cons_succ, limb_cons_zero]; exact Nat.mod_lt _ (by norm_num)
    | j + 2 => rw [hz (j + 2) (by omega)]; norm_num
  · rw [limb_cons_succ, limb_cons_zero, hhi]
  · rw [value_high_zero 2 W _ hW (fun j h1 _ => hz j h1), value_succ, value_succ, value_zero,
      limb_cons_zero, limb_cons_succ, limb_cons_zero, hhi]
    omega

/-! ## Bitwise operations -/

/-- A loop `for (i = 0; i < hi; i++) pn[i] = f i pn[i];` leaves `f j pn[j]` in
every limb `j < hi` and keeps the others. -/
theorem limb_forLoop_map (hi : Nat) (f : Nat → Nat → Nat) (mem : List Nat)
    (hhi : hi ≤ mem.length) (j : Nat) :
    limb (forLoop 0 hi (fun i p => p.set i (f i (limb p i))) mem) j =
      if j < hi then f j (limb mem j) else limb mem j := by
  induction hi with
  | zero => rw [forLoop_self]; simp
  | succ k ih =>
    have hl := length_forLoop_set 0 k (fun i p => f i (limb p i)) mem
    have ihk := ih (by omega)
    rw [forLoop_succ 0 k (Nat.zero_le k), limb_set, hl]
    by_cases hjk : k = j
    · subst hjk
      have hk : k < mem.length := by omega
      have e : limb (forLoop 0 k (fun i p => p.set i (f i (limb p i))) mem) k = limb mem k := by
        rw [ihk]; simp
      simp [hk, e]
    · have e1 : ¬ (k = j ∧ k < mem.length) := by omega
      rw [if_neg e1, ihk]
      by_cases hj : j < k
      · have hj2 : j < k + 1 := by omega
        rw [if_pos hj, if_pos hj2]
      · have hj2 : ¬ j < k + 1 := by omega
        rw [if_neg hj, if_neg hj2]

/-- The loop of `operator~()` never writes the receiver: after `k` iterations
the state is the receiver and the result of the same loop on `ret` alone. -/
theorem operator_not_loop_eq (pn r : List Nat) (k : Nat) :
    forLoop 0 k operator_not_body (pn, r) =
      (pn, forLoop 0 k (fun i r => r.set i (not32 (limb pn i))) r) := by
  induction k with
  | zero => rw [forLoop_self, forLoop_self]
  | succ k ih =>
    rw [forLoop_succ 0 k (Nat.zero_le k), forLoop_succ 0 k (Nat.zero_le k), ih]
    rfl

theorem operator_not_run_eq (W : Nat) (pn : List Nat) :
    operator_not_run W pn =
      (pn, forLoop 0 W (fun i r => r.set i (not32 (limb pn i)))
        (base_uint_default W (fresh W))) :=
  operator_not_loop_eq pn _ W

theorem operator_not_limbs (W : Nat) (x : List Nat) :
    (operator_not W x).length = W ∧
    ∀ j, j < W → limb (operator_not W x) j = not32 (limb x j) := by
  unfold operator_not
  rw [operator_not_run_eq]
  exact complement_limbs W x

theorem bitwise_loop_spec (W : Nat) (f : Nat → Nat → Nat) (x y : List Nat)
    (hx : IsValue W x) (hy : IsValue W y)
    (hf : ∀ a b, a < 2 ^ 32 → b < 2 ^ 32 → f a b < 2 ^ 32) :
    IsValue W (forLoop 0 W (fun i p => p.set i (f (limb p i) (limb y i))) x) ∧
    ∀ j, j < W → limb (forLoop 0 W (fun i p => p.set i (f (limb p i) (limb y i))) x) j =
      f (limb x j) (limb y j) := by
  have hl := length_forLoop_set 0 W (fun i p => f (limb p i) (limb y i)) x
  have hlimb : ∀ j, j < W →
      limb (forLoop 0 W (fun i p => p.set i (f (limb p i) (limb y i))) x) j =
        f (limb x j) (limb y j) := by
    intro j hj
    rw [limb_forLoop_map W (fun i a => f a (limb y i)) x (by rw [hx.1]) j, if_pos hj]
  refine ⟨⟨by rw [hl]; exact hx.1, fun j hj => ?_⟩, hlimb⟩
  rw [hlimb j hj]
  exact hf _ _ (hx.2 j hj) (hy.2 j hj)

theorem and_lt32 (a b : Nat) (_ : a < 2 ^ 32) (hb : b < 2 ^ 32) : a &&& b < 2 ^ 32 :=
  Nat.and_lt_two_pow a hb

theorem or_lt32 (a b : Nat) (ha : a < 2 ^ 32) (hb : b < 2 ^ 32) : a ||| b < 2 ^ 32 :=
  Nat.or_lt_two_pow ha hb

theorem xor_lt32 (a b : Nat) (ha : a < 2 ^ 32) (hb : b < 2 ^ 32) : a ^^^ b < 2 ^ 32 :=
  Nat.xor_lt_two_pow ha hb

/-- A read-modify-write of `pn[0]` and then `pn[1]`, as in `operator^=(uint64_t)`
and `operator|=(uint64_t)`, on an array of at least two limbs. -/
theorem store01_spec (W : Nat) (x : List Nat) (hx : IsValue W x) (hW : 2 ≤ W)
    (f : Nat → Nat → Nat) (v0 v1 : Nat)
    (h0 : f (limb x 0) v0 < 2 ^ 32) (h1 : f (limb x 1) v1 < 2 ^ 32) :
    ∃ r, ((store x 0 (f (limb x 0) v0)).bind fun pn0 =>
        store pn0 1 (f (limb pn0 1) v1)) = some r ∧
      IsValue W r ∧ limb r 0 = f (limb x 0) v0 ∧ limb r 1 = f (limb x 1) v1 ∧
      ∀ j, 2 ≤ j → limb r j = limb x j := by
  have hl0 : 0 < x.length := by rw [hx.1]; omega
  have hl1 : 1 < (x.set 0 (f (limb x 0) v0)).length := by rw [List.length_set, hx.1]; omega
  have e1 : limb (x.set 0 (f (limb x 0) v0)) 1 = limb x 1 := limb_set_ne x 0 1 _ (by omega)
  refine ⟨(x.set 0 (f (limb x 0) v0)).set 1 (f (limb x 1) v1), ?_, ⟨?_, ?_⟩, ?_, ?_, ?_⟩
  · unfold store
    simp only [hl0, if_true, Option.some_bind, hl1, e1]
  · rw [List.length_set, List.length_set]; exact hx.1
  · intro j hj
    match j with
    | 0 => rw [limb_set_ne _ 1 0 _ (by omega), limb_set_self _ 0 _ hl0]; exact h0
    | 1 => rw [limb_set_self _ 1 _ hl1]; exact h1
    | i + 2 =>
      rw [limb_set_ne _ 1 (i + 2) _ (by omega), limb_set_ne _ 0 (i + 2) _ (by omega)]
      exact hx.2 _ hj
  · rw [limb_set_ne _ 1 0 _ (by omega), limb_set_self _ 0 _ hl0]
  · rw [limb_set_self _ 1 _ hl1]
  · intro j hj
    rw [limb_set_ne _ 1 j _ (by omega), limb_set_ne _ 0 j _ (by omega)]

theorem shiftRight32_mod (b : Nat) (hb : b < 2 ^ 64) : (b >>> 32) % 2 ^ 32 = b / 2 ^ 32 := by
  rw [Nat.shiftRight_eq_div_pow]; omega

/-- Every one of the 32 bits of `not32 a` is the opposite of that bit of `a`. -/
theorem not32_testBit (a : Nat) (ha : a < 2 ^ 32) (k : Nat) (hk : k < 32) :
    (not32 a).testBit k = !a.testBit k := by
  unfold not32
  have e : 4294967295 - a % 2 ^ 32 = 2 ^ 32 - (a + 1) := by
    rw [Nat.mod_eq_of_lt ha]; omega
  rw [e, Nat.testBit_two_pow_sub_succ ha]
  simp [hk]

theorem value_not (W : Nat) (x : List Nat) (hx : IsValue W x) :
    value W (operator_not W x) = 2 ^ (32 * W) - 1 - value W x := by
  have h := value_not32 W _ x (operator_not_limbs W x).2 hx.2
  omega

theorem operator_not_isValue (W : Nat) (x : List Nat) : IsValue W (operator_not W x) :=
  ⟨(operator_not_limbs W x).1, fun i hi => by
    rw [(operator_not_limbs W x).2 i hi]; exact not32_lt _⟩

/-! ## The 64-bit forms of addition and subtraction -/

theorem base_uint_default_length (W : Nat) : (base_uint_default W (fresh W)).length = W := by
  rw [base_uint_default_eq W (fresh W) (length_fresh W), List.length_replicate]

theorem operator_plus_eq_u64_eq (W : Nat) (x : List Nat) (b : Nat) (hW : 2 ≤ W) :
    operator_plus_eq_u64 W x b =
      some (operator_plus_eq W x
        (b % 2 ^ 32 :: (b >>> 32) % 2 ^ 32 :: List.replicate (W - 2) 0)) := by
  unfold operator_plus_eq_u64
  rw [operator_assign_u64_eq W _ b (base_uint_default_length W) hW]
  rfl

theorem operator_minus_eq_u64_eq (W : Nat) (x : List Nat) (b : Nat) (hW : 2 ≤ W) :
    operator_minus_eq_u64 W x b =
      some (operator_minus_eq W x
        (b % 2 ^ 32 :: (b >>> 32) % 2 ^ 32 :: List.replicate (W - 2) 0)) := by
  unfold operator_minus_eq_u64 operator_minus_eq
  rw [operator_assign_u64_eq W _ b (base_uint_default_length W) hW]
  rfl

theorem inc_dec_mod (v M : Nat) (hv : v < M) : ((v + 1) % M + M - 1) % M = v := by
  by_cases h : v + 1 = M
  · have e1 : (v + 1) % M = 0 := by rw [h, Nat.mod_self]
    have e2 : 0 + M - 1 = v := by omega
    rw [e1, e2, Nat.mod_eq_of_lt hv]
  · have e1 : (v + 1) % M = v + 1 := Nat.mod_eq_of_lt (by omega)
    have e2 : v + 1 + M - 1 = v + M := by omega
    rw [e1, e2, Nat.add_mod_right, Nat.mod_eq_of_lt hv]

theorem dec_inc_mod (v M : Nat) (hv : v < M) : ((v + M - 1) % M + 1) % M = v := by
  by_cases h : v = 0
  · subst h
    have e0 : 0 + M - 1 = M - 1 := by omega
    have e1 : (M - 1) % M = M - 1 := Nat.mod_eq_of_lt (by omega)
    have e2 : M - 1 + 1 = M := by omega
    rw [e0, e1, e2, Nat.mod_self]
  · have e0 : v + M - 1 = (v - 1) + M := by omega
    have e1 : (v - 1) % M = v - 1 := Nat.mod_eq_of_lt (by omega)
    have e2 : v - 1 + 1 = v := by omega
    rw [e0, Nat.add_mod_right, e1, e2, Nat.mod_eq_of_lt hv]

/-! ## Low 64 bits and equality -/

theorem value_mod_low (k W : Nat) (pn : List Nat) (hk : k ≤ W)
    (h : ∀ i, i < k → limb pn i < 2 ^ 32) :
    value W pn % 2 ^ (32 * k) = value k pn := by
  induction W, hk using Nat.le_induction with
  | base => exact Nat.mod_eq_of_lt (value_lt k pn h)
  | succ n hn ih =>
    have e : 2 ^ (32 * n) = 2 ^ (32 * (n - k)) * 2 ^ (32 * k) := by
      rw [← Nat.pow_add]; congr 1; omega
    rw [value_succ, e, ← Nat.mul_assoc, Nat.add_mul_mod_self_right, ih]

theorem or_shift32 (a b : Nat) (ha : a < 2 ^ 32) (hb : b < 2 ^ 32) :
    a ||| ((b <<< 32) % 2 ^ 64) = a + b * 2 ^ 32 := by
  have h1 : b <<< 32 = 2 ^ 32 * b := by rw [Nat.shiftLeft_eq, Nat.mul_comm]
  have h2 : 2 ^ 32 * b < 2 ^ 64 := by omega
  rw [h1, Nat.mod_eq_of_lt h2, Nat.or_comm, ← Nat.mul_add_lt_is_or ha b]
  omega

theorem getLow64_eq (W : Nat) (x : List Nat) (hx : IsValue W x) (hW : 2 ≤ W) :
    GetLow64 W x = some (limb x 0 + limb x 1 * 2 ^ 32) := by
  unfold GetLow64
  rw [if_pos hW, or_shift32 _ _ (hx.2 0 (by omega)) (hx.2 1 (by omega))]

theorem value_two (x : List Nat) : value 2 x = limb x 0 + limb x 1 * 2 ^ 32 := by
  rw [value_succ, value_succ, value_zero]
  simp

theorem memcmp_cons (a b : Nat) (s1 s2 : List Nat) (n : Nat) :
    memcmp (a :: s1) (b :: s2) (n + 1) = 0 ↔ a = b ∧ memcmp s1 s2 n = 0 := by
  rw [memcmp]
  by_cases h1 : a < b
  · simp only [h1, if_true]
    constructor
    · intro h; omega
    · intro h; omega
  · by_cases h2 : b < a
    · simp only [h1, h2, if_false, if_true]
      constructor
      · intro h; omega
      · intro h; omega
    · have e : a = b := by omega
      subst e
      simp

theorem bytes_inj (x y : Nat) (hx : x < 2 ^ 32) (hy : y < 2 ^ 32)
    (h0 : x % 256 = y % 256) (h1 : x / 2 ^ 8 % 256 = y / 2 ^ 8 % 256)
    (h2 : x / 2 ^ 16 % 256 = y / 2 ^ 16 % 256) (h3 : x / 2 ^ 24 % 256 = y / 2 ^ 24 % 256) :
    x = y := by
  omega

/-- Over arrays of the same length with 32-bit elements, `memcmp` over the
whole object is zero exactly when the arrays are equal, in either byte
order. -/
theorem memcmp_object_bytes (le : Bool) : ∀ (a b : List Nat), a.length = b.length →
    (∀ i, i < a.length → limb a i < 2 ^ 32) → (∀ i, i < b.length → limb b i < 2 ^ 32) →
    (memcmp (object_bytes le a) (object_bytes le b) (4 * a.length) = 0 ↔ a = b) := by
  intro a
  induction a with
  | nil =>
    intro b hl _ _
    have hb : b = [] := List.length_eq_zero.mp hl.symm
    subst hb
    simp [object_bytes, memcmp]
  | cons x s1 ih =>
    intro b hl ha hb
    match b, hl, hb with
    | [], hl, _ => simp at hl
    | y :: s2, hl, hb =>
      have hl2 : s1.length = s2.length := by simpa using hl
      have hx : x < 2 ^ 32 := ha 0 (by simp)
      have hy : y < 2 ^ 32 := hb 0 (by simp)
      have ih2 := ih s2 hl2
        (fun i hi => ha (i + 1) (by simp only [List.length_cons]; omega))
        (fun i hi => hb (i + 1) (by simp only [List.length_cons]; omega))
      have e : 4 * (x :: s1).length = 4 * s1.length + 1 + 1 + 1 + 1 := by
        simp only [List.length_cons]; omega
      rw [e]
      cases le
      · simp only [object_bytes, bytes_of_limb, Bool.false_eq_true, if_false, List.cons_append,
          List.nil_append, memcmp_cons, ih2]
        constructor
        · rintro ⟨h3, h2, h1, h0, hs⟩
          rw [bytes_inj x y hx hy h0 h1 h2 h3, hs]
        · intro h
          injection h with h1 h2
          subst h1
          exact ⟨rfl, rfl, rfl, rfl, h2⟩
      · simp only [object_bytes, bytes_of_limb, if_true, List.cons_append,
          List.nil_append, memcmp_cons, ih2]
        constructor
        · rintro ⟨h0, h1, h2, h3, hs⟩
          rw [bytes_inj x y hx hy h0 h1 h2 h3, hs]
        · intro h
          injection h with h1 h2
          subst h1
          exact ⟨rfl, rfl, rfl, rfl, h2⟩

theorem limb_eq_iff_eq (W : Nat) (a b : List Nat) (ha : a.length = W) (hb : b.length = W) :
    (∀ i, i < W → limb a i = limb b i) ↔ a = b := by
  constructor
  · intro h
    exact list_eq_of_limb a b (by rw [ha, hb]) (fun i hi => h i (by rw [← ha]; exact hi))
  · intro h i _
    rw [h]

/-! ## The claims -/

/-- C1: for every valid width and all values `x`, `y`, both `x += y` and the
binary `x + y` return a value of the same width (they cannot fail) that
denotes `(value x + value y) mod 2^BITS`; what is lost is exactly the carry
out of the top limb. -/
theorem operator_plus_eq_wraps (BITS : Nat) (hB : validBITS BITS) (x y : List Nat)
    (hx : IsValue (WIDTH BITS) x) (hy : IsValue (WIDTH BITS) y) :
    IsValue (WIDTH BITS) (operator_plus_eq (WIDTH BITS) x y) ∧
    value (WIDTH BITS) (operator_plus_eq (WIDTH BITS) x y) =
      (value (WIDTH BITS) x + value (WIDTH BITS) y) % 2 ^ BITS ∧
    value (WIDTH BITS) (operator_plus_eq (WIDTH BITS) x y) +
        (forLoop 0 (WIDTH BITS) (operator_plus_eq_body y) (x, 0)).2 * 2 ^ BITS =
      value (WIDTH BITS) x + value (WIDTH BITS) y ∧
    IsValue (WIDTH BITS) (operator_plus (WIDTH BITS) x y) ∧
    value (WIDTH BITS) (operator_plus (WIDTH BITS) x y) =
      (value (WIDTH BITS) x + value (WIDTH BITS) y) % 2 ^ BITS := by
  have e := bits_eq BITS hB
  generalize WIDTH BITS = W at *
  subst e
  rw [operator_plus_unfold W x y hx.1]
  have h1 := operator_plus_eq_isValue W x y hx hy
  have h2 := operator_plus_eq_value W x y hx hy
  exact ⟨h1, h2, (operator_plus_eq_inv W x y hx hy W (le_refl W)).2.2.2.2, h1, h2⟩

theorem operator_plus_eq_wraps_witness :
    validBITS 64 ∧ IsValue (WIDTH 64) [4294967295, 4294967295] ∧ IsValue (WIDTH 64) [1, 0] ∧
    value (WIDTH 64) (operator_plus_eq (WIDTH 64) [4294967295, 4294967295] [1, 0]) =
      (value (WIDTH 64) [4294967295, 4294967295] + value (WIDTH 64) [1, 0]) % 2 ^ 64 :=
  ⟨by decide, by decide, by decide,
    (operator_plus_eq_wraps 64 (by decide) [4294967295, 4294967295] [1, 0]
      (by decide) (by decide)).2.1⟩

/-- C2: for every valid width and all values `x`, `y` (also `y > x`),
`x -= y`, computed as `x += (-y)`, gives the very limbs of the borrow-chain
subtraction of `y` from `x`, and the result denotes
`(value x - value y) mod 2^BITS`. -/
theorem operator_minus_eq_refines_borrow (BITS : Nat) (hB : validBITS BITS) (x y : List Nat)
    (hx : IsValue (WIDTH BITS) x) (hy : IsValue (WIDTH BITS) y) :
    operator_minus_eq (WIDTH BITS) x y = spec_borrow_sub (WIDTH BITS) x y ∧
    IsValue (WIDTH BITS) (operator_minus_eq (WIDTH BITS) x y) ∧
    (value (WIDTH BITS) (operator_minus_eq (WIDTH BITS) x y) : Int) =
      ((value (WIDTH BITS) x : Int) - (value (WIDTH BITS) y : Int)) % ((2 ^ BITS : Nat) : Int) := by
  have e := bits_eq BITS hB
  generalize WIDTH BITS = W at *
  subst e
  have h1 := operator_minus_eq_isValue W x y hx
  have h2 := operator_minus_eq_value W x y hx hy
  refine ⟨?_, h1, ?_⟩
  · apply value_inj W _ _ h1 (spec_borrow_sub_isValue W x y hx hy)
    rw [h2, spec_borrow_sub_value W x y hx hy]
  · rw [h2]
    exact cast_sub_mod _ _ _ (le_of_lt (value_lt_of_isValue W y hy))

theorem operator_minus_eq_refines_borrow_witness :
    validBITS 64 ∧ IsValue (WIDTH 64) [1, 0] ∧ IsValue (WIDTH 64) [2, 0] ∧
    operator_minus_eq (WIDTH 64) [1, 0] [2, 0] = spec_borrow_sub (WIDTH 64) [1, 0] [2, 0] ∧
    operator_minus_eq (WIDTH 64) [1, 0] [2, 0] = [4294967295, 4294967295] :=
  ⟨by decide, by decide, by decide,
    (operator_minus_eq_refines_borrow 64 (by decide) [1, 0] [2, 0] (by decide) (by decide)).1,
    by decide⟩

/-- C3: for every valid width and every value `x`, `x + (-x)` is the value
with all limbs zero: `-x` (the complement of every limb, then `++`) denotes
`(2^BITS - value x) mod 2^BITS`, the additive inverse of `x`; and `-0` is `0`. -/
theorem operator_neg_additive_inverse (BITS : Nat) (hB : validBITS BITS) (x : List Nat)
    (hx : IsValue (WIDTH BITS) x) :
    operator_plus (WIDTH BITS) x (operator_neg (WIDTH BITS) x) =
      List.replicate (WIDTH BITS) 0 ∧
    IsValue (WIDTH BITS) (operator_neg (WIDTH BITS) x) ∧
    value (WIDTH BITS) (operator_neg (WIDTH BITS) x) =
      (2 ^ BITS - value (WIDTH BITS) x) % 2 ^ BITS ∧
    operator_neg (WIDTH BITS) (List.replicate (WIDTH BITS) 0) = List.replicate (WIDTH BITS) 0 := by
  have e := bits_eq BITS hB
  generalize WIDTH BITS = W at *
  subst e
  have hn := operator_neg_isValue W x
  have hv := operator_neg_value W x hx
  have hlt := value_lt_of_isValue W x hx
  refine ⟨?_, hn, hv, ?_⟩
  · rw [operator_plus_unfold W x _ hx.1]
    apply value_inj W _ _ (operator_plus_eq_isValue W x _ hx hn) (isValue_zero W)
    rw [operator_plus_eq_value W x _ hx hn, hv, value_replicate_zero,
      add_sub_mod _ _ _ (le_of_lt hlt)]
    have : value W x + 2 ^ (32 * W) - value W x = 2 ^ (32 * W) := by omega
    rw [this, Nat.mod_self]
  · apply value_inj W _ _ (operator_neg_isValue W _) (isValue_zero W)
    rw [operator_neg_value W _ (isValue_zero W), value_replicate_zero, Nat.sub_zero,
      Nat.mod_self]

theorem operator_neg_additive_inverse_witness :
    validBITS 64 ∧ IsValue (WIDTH 64) [5, 7] ∧
    operator_plus (WIDTH 64) [5, 7] (operator_neg (WIDTH 64) [5, 7]) =
      List.replicate (WIDTH 64) 0 :=
  ⟨by decide, by decide,
    (operator_neg_additive_inverse 64 (by decide) [5, 7] (by decide)).1⟩

/-- C4: for every valid width and all values `x`, `y` (also `y > x`),
`(x - y) + y` is `x`, limb for limb. -/
theorem operator_minus_plus_cancel (BITS : Nat) (hB : validBITS BITS) (x y : List Nat)
    (hx : IsValue (WIDTH BITS) x) (hy : IsValue (WIDTH BITS) y) :
    operator_plus (WIDTH BITS) (operator_minus (WIDTH BITS) x y) y = x := by
  have e := bits_eq BITS hB
  generalize WIDTH BITS = W at *
  rw [operator_minus_unfold W x y hx.1]
  have h1 := operator_minus_eq_isValue W x y hx
  rw [operator_plus_unfold W _ y h1.1]
  apply value_inj W _ _ (operator_plus_eq_isValue W _ y h1 hy) hx
  rw [operator_plus_eq_value W _ y h1 hy, operator_minus_eq_value W x y hx hy,
    sub_add_mod _ _ _ (le_of_lt (value_lt_of_isValue W y hy)),
    Nat.mod_eq_of_lt (value_lt_of_isValue W x hx)]

theorem operator_minus_plus_cancel_witness :
    validBITS 64 ∧ IsValue (WIDTH 64) [1, 0] ∧ IsValue (WIDTH 64) [2, 9] ∧
    operator_plus (WIDTH 64) (operator_minus (WIDTH 64) [1, 0] [2, 9]) [2, 9] = [1, 0] :=
  ⟨by decide, by decide, by decide,
    operator_minus_plus_cancel 64 (by decide) [1, 0] [2, 9] (by decide) (by decide)⟩


/-- C5: for every width with at least two limbs and every 64-bit `b`, the
constructor (on any storage) and the assignment (on any receiver) succeed and
give the same value: limb 0 is the low half of `b`, limb 1 the high half, the
limbs from 2 up are zero, and the value denotes `b`. -/
theorem base_uint_u64_spec (BITS : Nat) (hB : validBITS BITS) (hW : 2 ≤ WIDTH BITS)
    (mem pn : List Nat) (hmem : mem.length = WIDTH BITS) (hpn : pn.length = WIDTH BITS)
    (b : Nat) (hb : b < 2 ^ 64) :
    ∃ r, base_uint_u64 (WIDTH BITS) mem b = some r ∧
      operator_assign_u64 (WIDTH BITS) pn b = some r ∧
      IsValue (WIDTH BITS) r ∧
      limb r 0 = b % 2 ^ 32 ∧ limb r 1 = b / 2 ^ 32 ∧
      (∀ j, 2 ≤ j → j < WIDTH BITS → limb r j = 0) ∧
      value (WIDTH BITS) r = b := by
  have _ := hB
  obtain ⟨h1, h2, h3, h4, h5⟩ := u64_limbs_spec (WIDTH BITS) b hW hb
  exact ⟨_, base_uint_u64_eq _ mem b hmem hW, operator_assign_u64_eq _ pn b hpn hW,
    h1, h2, h3, h4, h5⟩

theorem base_uint_u64_spec_witness :
    validBITS 96 ∧ 2 ≤ WIDTH 96 ∧ [7, 8, 9].length = WIDTH 96 ∧ [1, 2, 3].length = WIDTH 96 ∧
    12884901893 < 2 ^ 64 ∧
    ∃ r, base_uint_u64 (WIDTH 96) [7, 8, 9] 12884901893 = some r ∧
      operator_assign_u64 (WIDTH 96) [1, 2, 3] 12884901893 = some r ∧
      IsValue (WIDTH 96) r ∧
      limb r 0 = 12884901893 % 2 ^ 32 ∧ limb r 1 = 12884901893 / 2 ^ 32 ∧
      (∀ j, 2 ≤ j → j < WIDTH 96 → limb r j = 0) ∧
      value (WIDTH 96) r = 12884901893 :=
  ⟨by decide, by decide, by decide, by decide, by decide,
    base_uint_u64_spec 96 (by decide) (by decide) [7, 8, 9] [1, 2, 3] (by decide) (by decide)
      12884901893 (by decide)⟩

/-- C6, the code at the one-limb width (`BITS = 32`): the write `pn[0] = ...`
is inside the array, the unguarded write `pn[1] = ...` is outside it, so the
constructor and the assignment from `b = 2^32` do not produce a value. -/
theorem base_uint_u64_one_limb :
    validBITS 32 ∧ WIDTH 32 = 1 ∧
    store [0] 0 (4294967296 % 2 ^ 32) = some [0] ∧
    store [0] 1 ((4294967296 >>> 32) % 2 ^ 32) = none ∧
    base_uint_u64 (WIDTH 32) [0] 4294967296 = none ∧
    operator_assign_u64 (WIDTH 32) [7] 4294967296 = none := by
  decide

/-- C7: for every valid width and every value `x`, `++x` is a value denoting
`(value x + 1) mod 2^BITS`.  If limb `k` is the first one that is not
`0xffffffff`, the limbs below `k` become zero, limb `k` is incremented and the
limbs above `k` are unchanged; if every limb is `0xffffffff` the result is the
zero value. -/
theorem operator_inc_spec (BITS : Nat) (hB : validBITS BITS) (x : List Nat)
    (hx : IsValue (WIDTH BITS) x) :
    IsValue (WIDTH BITS) (operator_inc (WIDTH BITS) x) ∧
    value (WIDTH BITS) (operator_inc (WIDTH BITS) x) = (value (WIDTH BITS) x + 1) % 2 ^ BITS ∧
    (∀ k, k < WIDTH BITS → (∀ j, j < k → limb x j = 4294967295) → limb x k ≠ 4294967295 →
      (∀ j, j < k → limb (operator_inc (WIDTH BITS) x) j = 0) ∧
      limb (operator_inc (WIDTH BITS) x) k = limb x k + 1 ∧
      (∀ j, k < j → limb (operator_inc (WIDTH BITS) x) j = limb x j)) ∧
    ((∀ j, j < WIDTH BITS → limb x j = 4294967295) →
      operator_inc (WIDTH BITS) x = List.replicate (WIDTH BITS) 0) := by
  have e := bits_eq BITS hB
  generalize WIDTH BITS = W at *
  subst e
  refine ⟨operator_inc_isValue W x hx, operator_inc_value W x hx, ?_, ?_⟩
  · intro k hk hmax hne
    have hb := hx.2 k hk
    have hl := operator_inc_loop_limbs W W 0 k x hx.1 (Nat.zero_le k) (le_of_lt hk) (by omega)
      (fun j _ hj => hmax j hj) (fun _ => by omega)
    unfold operator_inc
    refine ⟨fun j hj => ?_, ?_, fun j hj => ?_⟩
    · rw [hl j]; simp [hj]
    · rw [hl k]; simp [hk]
    · have e1 : ¬ (0 ≤ j ∧ j < k) := by omega
      have e2 : ¬ (j = k ∧ k < W) := by omega
      rw [hl j, if_neg e1, if_neg e2]
  · intro hmax
    have hl := operator_inc_loop_limbs W W 0 W x hx.1 (Nat.zero_le W) (le_refl W) (by omega)
      (fun j _ hj => hmax j hj) (fun h => by omega)
    have hlen := (operator_inc_isValue W x hx).1
    unfold operator_inc at hlen ⊢
    apply list_eq_of_limb
    · rw [hlen, List.length_replicate]
    · intro j hj
      rw [hlen] at hj
      rw [hl j, limb_replicate_zero]
      simp [hj]

theorem operator_inc_spec_witness :
    validBITS 96 ∧ IsValue (WIDTH 96) [4294967295, 4294967295, 5] ∧
    value (WIDTH 96) (operator_inc (WIDTH 96) [4294967295, 4294967295, 5]) =
      (value (WIDTH 96) [4294967295, 4294967295, 5] + 1) % 2 ^ 96 ∧
    operator_inc (WIDTH 96) [4294967295, 4294967295, 5] = [0, 0, 6] :=
  ⟨by decide, by decide,
    (operator_inc_spec 96 (by decide) [4294967295, 4294967295, 5] (by decide)).2.1,
    by decide⟩

/-- C8: for every valid width and every value `x`, `--x` is a value denoting
`(value x - 1) mod 2^BITS`.  If limb `k` is the first nonzero one, the limbs
below `k` become `0xffffffff`, limb `k` is decremented and the limbs above `k`
are unchanged; the zero value becomes the value with every limb `0xffffffff`. -/
theorem operator_dec_spec (BITS : Nat) (hB : validBITS BITS) (x : List Nat)
    (hx : IsValue (WIDTH BITS) x) :
    IsValue (WIDTH BITS) (operator_dec (WIDTH BITS) x) ∧
    (value (WIDTH BITS) (operator_dec (WIDTH BITS) x) : Int) =
      ((value (WIDTH BITS) x : Int) - 1) % ((2 ^ BITS : Nat) : Int) ∧
    (∀ k, k < WIDTH BITS → (∀ j, j < k → limb x j = 0) → limb x k ≠ 0 →
      (∀ j, j < k → limb (operator_dec (WIDTH BITS) x) j = 4294967295) ∧
      limb (operator_dec (WIDTH BITS) x) k = limb x k - 1 ∧
      (∀ j, k < j → limb (operator_dec (WIDTH BITS) x) j = limb x j)) ∧
    operator_dec (WIDTH BITS) (List.replicate (WIDTH BITS) 0) =
      List.replicate (WIDTH BITS) 4294967295 := by
  have e := bits_eq BITS hB
  have hpos : 0 < WIDTH BITS := hB.1
  generalize WIDTH BITS = W at *
  subst e
  refine ⟨operator_dec_isValue W x hx, ?_, ?_, ?_⟩
  · rw [operator_dec_value W x hx]
    have h1 : 1 ≤ 2 ^ (32 * W) := Nat.one_le_two_pow
    have := cast_sub_mod (value W x) 1 (2 ^ (32 * W)) h1
    simpa using this
  · intro k hk hz hne
    have hb := hx.2 k hk
    have hl := operator_dec_loop_limbs W W 0 k x hx.1 (Nat.zero_le k) (le_of_lt hk) (by omega)
      (fun j _ hj => hz j hj) (fun _ => ⟨by omega, hb⟩)
    unfold operator_dec
    refine ⟨fun j hj => ?_, ?_, fun j hj => ?_⟩
    · rw [hl j]; simp [hj]
    · rw [hl k]; simp [hk]
    · have e1 : ¬ (0 ≤ j ∧ j < k) := by omega
      have e2 : ¬ (j = k ∧ k < W) := by omega
      rw [hl j, if_neg e1, if_neg e2]
  · have hl := operator_dec_loop_limbs W W 0 W (List.replicate W 0) (List.length_replicate W 0)
      (Nat.zero_le W) (le_refl W) (by omega)
      (fun j _ _ => limb_replicate_zero W j) (fun h => by omega)
    have hlen := (operator_dec_isValue W _ (isValue_zero W)).1
    unfold operator_dec at hlen ⊢
    apply list_eq_of_limb
    · rw [hlen, List.length_replicate]
    · intro j hj
      rw [hlen] at hj
      rw [hl j, limb_replicate W 4294967295 j hj]
      simp [hj]

theorem operator_dec_spec_witness :
    validBITS 96 ∧ IsValue (WIDTH 96) [0, 0, 5] ∧
    (value (WIDTH 96) (operator_dec (WIDTH 96) [0, 0, 5]) : Int) =
      ((value (WIDTH 96) [0, 0, 5] : Int) - 1) % ((2 ^ 96 : Nat) : Int) ∧
    operator_dec (WIDTH 96) [0, 0, 5] = [4294967295, 4294967295, 4] :=
  ⟨by decide, by decide,
    (operator_dec_spec 96 (by decide) [0, 0, 5] (by decide)).2.1,
    by decide⟩


/-- C9: for every width with at least two limbs, every value `x` and every
64-bit `b`, with `w` the value constructed from `b`: `x += b` gives the limbs
of the full-width `x += w` and `x -= b` those of `x -= w`; the results denote
`(value x + b) mod 2^BITS` and `(value x - b) mod 2^BITS`. -/
theorem operator_plus_eq_u64_spec (BITS : Nat) (hB : validBITS BITS) (hW : 2 ≤ WIDTH BITS)
    (mem : List Nat) (hmem : mem.length = WIDTH BITS) (x : List Nat)
    (hx : IsValue (WIDTH BITS) x) (b : Nat) (hb : b < 2 ^ 64) :
    ∃ w, base_uint_u64 (WIDTH BITS) mem b = some w ∧
      operator_plus_eq_u64 (WIDTH BITS) x b = some (operator_plus_eq (WIDTH BITS) x w) ∧
      operator_minus_eq_u64 (WIDTH BITS) x b = some (operator_minus_eq (WIDTH BITS) x w) ∧
      value (WIDTH BITS) (operator_plus_eq (WIDTH BITS) x w) =
        (value (WIDTH BITS) x + b) % 2 ^ BITS ∧
      (value (WIDTH BITS) (operator_minus_eq (WIDTH BITS) x w) : Int) =
        ((value (WIDTH BITS) x : Int) - (b : Int)) % ((2 ^ BITS : Nat) : Int) := by
  have e := bits_eq BITS hB
  generalize WIDTH BITS = W at *
  subst e
  obtain ⟨h1, _, _, _, h5⟩ := u64_limbs_spec W b hW hb
  have hd : (base_uint_default W (fresh W)).length = W := by
    rw [base_uint_default_eq W (fresh W) (length_fresh W), List.length_replicate]
  have ha := operator_assign_u64_eq W (base_uint_default W (fresh W)) b hd hW
  refine ⟨_, base_uint_u64_eq W mem b hmem hW, ?_, ?_, ?_, ?_⟩
  · unfold operator_plus_eq_u64
    rw [ha]; rfl
  · unfold operator_minus_eq_u64 operator_minus_eq
    rw [ha]; rfl
  · rw [operator_plus_eq_value W x _ hx h1, h5]
  · rw [operator_minus_eq_value W x _ hx h1, h5]
    have hbM : b ≤ 2 ^ (32 * W) := by
      rw [← h5]; exact le_of_lt (value_lt_of_isValue W _ h1)
    exact cast_sub_mod _ _ _ hbM

theorem operator_plus_eq_u64_spec_witness :
    validBITS 96 ∧ 2 ≤ WIDTH 96 ∧ [0, 0, 0].length = WIDTH 96 ∧ IsValue (WIDTH 96) [7, 8, 9] ∧
    18446744073709551615 < 2 ^ 64 ∧
    ∃ w, base_uint_u64 (WIDTH 96) [0, 0, 0] 18446744073709551615 = some w ∧
      operator_plus_eq_u64 (WIDTH 96) [7, 8, 9] 18446744073709551615 =
        some (operator_plus_eq (WIDTH 96) [7, 8, 9] w) ∧
      operator_minus_eq_u64 (WIDTH 96) [7, 8, 9] 18446744073709551615 =
        some (operator_minus_eq (WIDTH 96) [7, 8, 9] w) ∧
      value (WIDTH 96) (operator_plus_eq (WIDTH 96) [7, 8, 9] w) =
        (value (WIDTH 96) [7, 8, 9] + 18446744073709551615) % 2 ^ 96 ∧
      (value (WIDTH 96) (operator_minus_eq (WIDTH 96) [7, 8, 9] w) : Int) =
        ((value (WIDTH 96) [7, 8, 9] : Int) - (18446744073709551615 : Int)) %
          ((2 ^ 96 : Nat) : Int) :=
  ⟨by decide, by decide, by decide, by decide, by decide,
    operator_plus_eq_u64_spec 96 (by decide) (by decide) [0, 0, 0] (by decide) [7, 8, 9]
      (by decide) 18446744073709551615 (by decide)⟩

/-- C10: at the 256-bit width, with `x` constructed from `0xFFFFFFFFFFFFFFFF`
and the operand `1` converted by the same constructor (on any storage),
`x + 1` has limbs 0 and 1 equal to 0, limb 2 equal to 1 and limbs 3..7 equal
to 0. -/
theorem max_u64_plus_one (mem1 mem2 : List Nat) (h1 : mem1.length = WIDTH 256)
    (h2 : mem2.length = WIDTH 256) :
    ∃ x one, base_uint_u64 (WIDTH 256) mem1 18446744073709551615 = some x ∧
      base_uint_u64 (WIDTH 256) mem2 1 = some one ∧
      operator_plus (WIDTH 256) x one = [0, 0, 1, 0, 0, 0, 0, 0] ∧
      limb (operator_plus (WIDTH 256) x one) 0 = 0 ∧
      limb (operator_plus (WIDTH 256) x one) 1 = 0 ∧
      limb (operator_plus (WIDTH 256) x one) 2 = 1 ∧
      ∀ j, 3 ≤ j → j < WIDTH 256 → limb (operator_plus (WIDTH 256) x one) j = 0 := by
  have hW : 2 ≤ WIDTH 256 := by decide
  refine ⟨_, _, base_uint_u64_eq _ mem1 _ h1 hW, base_uint_u64_eq _ mem2 _ h2 hW, ?_⟩
  decide

theorem max_u64_plus_one_witness :
    [9, 9, 9, 9, 9, 9, 9, 9].length = WIDTH 256 ∧ [0, 1, 2, 3, 4, 5, 6, 7].length = WIDTH 256 ∧
    ∃ x one, base_uint_u64 (WIDTH 256) [9, 9, 9, 9, 9, 9, 9, 9] 18446744073709551615 = some x ∧
      base_uint_u64 (WIDTH 256) [0, 1, 2, 3, 4, 5, 6, 7] 1 = some one ∧
      operator_plus (WIDTH 256) x one = [0, 0, 1, 0, 0, 0, 0, 0] ∧
      limb (operator_plus (WIDTH 256) x one) 0 = 0 ∧
      limb (operator_plus (WIDTH 256) x one) 1 = 0 ∧
      limb (operator_plus (WIDTH 256) x one) 2 = 1 ∧
      ∀ j, 3 ≤ j → j < WIDTH 256 → limb (operator_plus (WIDTH 256) x one) j = 0 :=
  ⟨by decide, by decide,
    max_u64_plus_one [9, 9, 9, 9, 9, 9, 9, 9] [0, 1, 2, 3, 4, 5, 6, 7] (by decide) (by decide)⟩

/-- C11: for every width with at least two limbs, every value `x` and every
64-bit `b`, `x ^= b` and `x |= b` succeed; limb 0 is the old limb 0 XOR (OR)
the low half of `b`, limb 1 the old limb 1 XOR (OR) the high half, and every
limb from index 2 up is unchanged. -/
theorem operator_xor_or_eq_u64_frame (BITS : Nat) (hB : validBITS BITS) (hW : 2 ≤ WIDTH BITS)
    (x : List Nat) (hx : IsValue (WIDTH BITS) x) (b : Nat) (hb : b < 2 ^ 64) :
    (∃ r, operator_xor_eq_u64 x b = some r ∧ IsValue (WIDTH BITS) r ∧
      limb r 0 = limb x 0 ^^^ (b % 2 ^ 32) ∧ limb r 1 = limb x 1 ^^^ (b / 2 ^ 32) ∧
      ∀ j, 2 ≤ j → limb r j = limb x j) ∧
    (∃ r, operator_or_eq_u64 x b = some r ∧ IsValue (WIDTH BITS) r ∧
      limb r 0 = limb x 0 ||| (b % 2 ^ 32) ∧ limb r 1 = limb x 1 ||| (b / 2 ^ 32) ∧
      ∀ j, 2 ≤ j → limb r j = limb x j) := by
  have _ := hB
  have hlo : b % 2 ^ 32 < 2 ^ 32 := Nat.mod_lt _ (by norm_num)
  have hhi : b / 2 ^ 32 < 2 ^ 32 := by omega
  have e := shiftRight32_mod b hb
  have hx0 := hx.2 0 (by omega)
  have hx1 := hx.2 1 (by omega)
  unfold operator_xor_eq_u64 operator_or_eq_u64
  rw [e]
  exact ⟨store01_spec _ x hx hW (fun a v => a ^^^ v) _ _ (xor_lt32 _ _ hx0 hlo)
      (xor_lt32 _ _ hx1 hhi),
    store01_spec _ x hx hW (fun a v => a ||| v) _ _ (or_lt32 _ _ hx0 hlo)
      (or_lt32 _ _ hx1 hhi)⟩

theorem operator_xor_or_eq_u64_frame_witness :
    validBITS 96 ∧ 2 ≤ WIDTH 96 ∧ IsValue (WIDTH 96) [1, 2, 3] ∧ 8589934598 < 2 ^ 64 ∧
    (∃ r, operator_xor_eq_u64 [1, 2, 3] 8589934598 = some r ∧ IsValue (WIDTH 96) r ∧
      limb r 0 = limb [1, 2, 3] 0 ^^^ (8589934598 % 2 ^ 32) ∧
      limb r 1 = limb [1, 2, 3] 1 ^^^ (8589934598 / 2 ^ 32) ∧
      ∀ j, 2 ≤ j → limb r j = limb [1, 2, 3] j) ∧
    (∃ r, operator_or_eq_u64 [1, 2, 3] 8589934598 = some r ∧ IsValue (WIDTH 96) r ∧
      limb r 0 = limb [1, 2, 3] 0 ||| (8589934598 % 2 ^ 32) ∧
      limb r 1 = limb [1, 2, 3] 1 ||| (8589934598 / 2 ^ 32) ∧
      ∀ j, 2 ≤ j → limb r j = limb [1, 2, 3] j) :=
  ⟨by decide, by decide, by decide, by decide,
    operator_xor_or_eq_u64_frame 96 (by decide) (by decide) [1, 2, 3] (by decide)
      8589934598 (by decide)⟩

/-- C12: for every valid width and every value `x`, `x++` returns the value
`x` held before the call and leaves the receiver equal to `++x`; `x--`
returns the old `x` and leaves the receiver equal to `--x`.  Both are total
and both components are values of the same width. -/
theorem operator_inc_dec_post_spec (BITS : Nat) (hB : validBITS BITS) (x : List Nat)
    (hx : IsValue (WIDTH BITS) x) :
    (operator_inc_post (WIDTH BITS) x).1 = x ∧
    (operator_inc_post (WIDTH BITS) x).2 = operator_inc (WIDTH BITS) x ∧
    IsValue (WIDTH BITS) (operator_inc_post (WIDTH BITS) x).2 ∧
    value (WIDTH BITS) (operator_inc_post (WIDTH BITS) x).2 =
      (value (WIDTH BITS) x + 1) % 2 ^ BITS ∧
    (operator_dec_post (WIDTH BITS) x).1 = x ∧
    (operator_dec_post (WIDTH BITS) x).2 = operator_dec (WIDTH BITS) x ∧
    IsValue (WIDTH BITS) (operator_dec_post (WIDTH BITS) x).2 ∧
    value (WIDTH BITS) (operator_dec_post (WIDTH BITS) x).2 =
      (value (WIDTH BITS) x + 2 ^ BITS - 1) % 2 ^ BITS := by
  have e := bits_eq BITS hB
  generalize WIDTH BITS = W at *
  subst e
  have hc := base_uint_copy_eq W (fresh W) x (length_fresh W) hx.1
  exact ⟨hc, rfl, operator_inc_isValue W x hx, operator_inc_value W x hx,
    hc, rfl, operator_dec_isValue W x hx, operator_dec_value W x hx⟩

theorem operator_inc_dec_post_spec_witness :
    validBITS 64 ∧ IsValue (WIDTH 64) [4294967295, 1] ∧
    (operator_inc_post (WIDTH 64) [4294967295, 1]).1 = [4294967295, 1] ∧
    operator_inc_post (WIDTH 64) [4294967295, 1] = ([4294967295, 1], [0, 2]) ∧
    operator_dec_post (WIDTH 64) [0, 1] = ([0, 1], [4294967295, 0]) :=
  ⟨by decide, by decide,
    (operator_inc_dec_post_spec 64 (by decide) [4294967295, 1] (by decide)).1,
    by decide, by decide⟩

/-- C13: for every valid width and every value `x`, `~x` is a value whose limb
`i` is the 32-bit complement of limb `i` of `x` (`0xffffffff - limb`, every
one of the 32 bits flipped), it denotes `2^BITS - 1 - value x`, and the loop
leaves the receiver `x` as it was. -/
theorem operator_not_spec (BITS : Nat) (hB : validBITS BITS) (x : List Nat)
    (hx : IsValue (WIDTH BITS) x) :
    IsValue (WIDTH BITS) (operator_not (WIDTH BITS) x) ∧
    (∀ i, i < WIDTH BITS → limb (operator_not (WIDTH BITS) x) i = 4294967295 - limb x i) ∧
    (∀ i, i < WIDTH BITS → ∀ k, k < 32 →
      (limb (operator_not (WIDTH BITS) x) i).testBit k = !(limb x i).testBit k) ∧
    value (WIDTH BITS) (operator_not (WIDTH BITS) x) = 2 ^ BITS - 1 - value (WIDTH BITS) x ∧
    (operator_not_run (WIDTH BITS) x).1 = x := by
  have e := bits_eq BITS hB
  generalize WIDTH BITS = W at *
  subst e
  have hl := (operator_not_limbs W x).2
  refine ⟨operator_not_isValue W x, fun i hi => ?_, fun i hi k hk => ?_, value_not W x hx, ?_⟩
  · rw [hl i hi]
    unfold not32
    rw [Nat.mod_eq_of_lt (hx.2 i hi)]
  · rw [hl i hi]
    exact not32_testBit _ (hx.2 i hi) k hk
  · rw [operator_not_run_eq]

theorem operator_not_spec_witness :
    validBITS 64 ∧ IsValue (WIDTH 64) [5, 4294967295] ∧
    value (WIDTH 64) (operator_not (WIDTH 64) [5, 4294967295]) =
      2 ^ 64 - 1 - value (WIDTH 64) [5, 4294967295] ∧
    operator_not (WIDTH 64) [5, 4294967295] = [4294967290, 0] :=
  ⟨by decide, by decide,
    (operator_not_spec 64 (by decide) [5, 4294967295] (by decide)).2.2.2.1,
    by decide⟩

/-- C14: for every valid width, all values `x`, `y` and every limb index
`i < WIDTH`, limb `i` of `x & y`, `x | y`, `x ^ y` is the AND, OR, XOR of the
limbs `i` of `x` and `y`; each binary form is a value and equals what the
compound form `&=`, `|=`, `^=` leaves in a copy of `x`. -/
theorem operator_bitwise_spec (BITS : Nat) (hB : validBITS BITS) (x y : List Nat)
    (hx : IsValue (WIDTH BITS) x) (hy : IsValue (WIDTH BITS) y) :
    (∀ i, i < WIDTH BITS → limb (operator_and (WIDTH BITS) x y) i = limb x i &&& limb y i) ∧
    (∀ i, i < WIDTH BITS → limb (operator_or (WIDTH BITS) x y) i = limb x i ||| limb y i) ∧
    (∀ i, i < WIDTH BITS → limb (operator_xor (WIDTH BITS) x y) i = limb x i ^^^ limb y i) ∧
    operator_and (WIDTH BITS) x y = operator_and_eq (WIDTH BITS) x y ∧
    operator_or (WIDTH BITS) x y = operator_or_eq (WIDTH BITS) x y ∧
    operator_xor (WIDTH BITS) x y = operator_xor_eq (WIDTH BITS) x y ∧
    IsValue (WIDTH BITS) (operator_and (WIDTH BITS) x y) ∧
    IsValue (WIDTH BITS) (operator_or (WIDTH BITS) x y) ∧
    IsValue (WIDTH BITS) (operator_xor (WIDTH BITS) x y) := by
  have _ := hB
  generalize WIDTH BITS = W at *
  have hc := base_uint_copy_eq W (fresh W) x (length_fresh W) hx.1
  have ha := bitwise_loop_spec W (fun a b => a &&& b) x y hx hy and_lt32
  have ho := bitwise_loop_spec W (fun a b => a ||| b) x y hx hy or_lt32
  have hxo := bitwise_loop_spec W (fun a b => a ^^^ b) x y hx hy xor_lt32
  unfold operator_and operator_or operator_xor
  rw [hc]
  exact ⟨ha.2, ho.2, hxo.2, rfl, rfl, rfl, ha.1, ho.1, hxo.1⟩

theorem operator_bitwise_spec_witness :
    validBITS 64 ∧ IsValue (WIDTH 64) [12, 10] ∧ IsValue (WIDTH 64) [10, 12] ∧
    operator_and (WIDTH 64) [12, 10] [10, 12] = operator_and_eq (WIDTH 64) [12, 10] [10, 12] ∧
    operator_and (WIDTH 64) [12, 10] [10, 12] = [8, 8] ∧
    operator_or (WIDTH 64) [12, 10] [10, 12] = [14, 14] ∧
    operator_xor (WIDTH 64) [12, 10] [10, 12] = [6, 6] :=
  ⟨by decide, by decide, by decide,
    (operator_bitwise_spec 64 (by decide) [12, 10] [10, 12] (by decide) (by decide)).2.2.2.1,
    by decide, by decide, by decide⟩

/-- C15: for every width with at least two limbs and every value `x`, the
early-stopping ripple of `++x` gives the limbs of `x += 1` with the 64-bit
operand 1, and `--x` gives the limbs of `x -= 1`. -/
theorem operator_inc_refines_plus_one (BITS : Nat) (hB : validBITS BITS)
    (hW : 2 ≤ WIDTH BITS) (x : List Nat) (hx : IsValue (WIDTH BITS) x) :
    operator_plus_eq_u64 (WIDTH BITS) x 1 = some (operator_inc (WIDTH BITS) x) ∧
    operator_minus_eq_u64 (WIDTH BITS) x 1 = some (operator_dec (WIDTH BITS) x) := by
  have _ := hB
  generalize WIDTH BITS = W at *
  obtain ⟨hw, _, _, _, hv⟩ := u64_limbs_spec W 1 hW (by norm_num)
  rw [operator_plus_eq_u64_eq W x 1 hW, operator_minus_eq_u64_eq W x 1 hW]
  refine ⟨congrArg some ?_, congrArg some ?_⟩
  · apply value_inj W _ _ (operator_plus_eq_isValue W x _ hx hw) (operator_inc_isValue W x hx)
    rw [operator_plus_eq_value W x _ hx hw, hv, operator_inc_value W x hx]
  · apply value_inj W _ _ (operator_minus_eq_isValue W x _ hx) (operator_dec_isValue W x hx)
    rw [operator_minus_eq_value W x _ hx hw, hv, operator_dec_value W x hx]

theorem operator_inc_refines_plus_one_witness :
    validBITS 96 ∧ 2 ≤ WIDTH 96 ∧ IsValue (WIDTH 96) [4294967295, 4294967295, 7] ∧
    operator_plus_eq_u64 (WIDTH 96) [4294967295, 4294967295, 7] 1 =
      some (operator_inc (WIDTH 96) [4294967295, 4294967295, 7]) ∧
    operator_minus_eq_u64 (WIDTH 96) [4294967295, 4294967295, 7] 1 =
      some (operator_dec (WIDTH 96) [4294967295, 4294967295, 7]) :=
  ⟨by decide, by decide, by decide,
    operator_inc_refines_plus_one 96 (by decide) (by decide) [4294967295, 4294967295, 7]
      (by decide)⟩

/-- C16: for every valid width and every value `x`, `--` applied to `++x`
gives back `x` and `++` applied to `--x` gives back `x`, limb for limb; in
particular at the all-ones value and at zero. -/
theorem operator_inc_dec_inverse (BITS : Nat) (hB : validBITS BITS) (x : List Nat)
    (hx : IsValue (WIDTH BITS) x) :
    operator_dec (WIDTH BITS) (operator_inc (WIDTH BITS) x) = x ∧
    operator_inc (WIDTH BITS) (operator_dec (WIDTH BITS) x) = x := by
  have _ := hB
  generalize WIDTH BITS = W at *
  have hi := operator_inc_isValue W x hx
  have hd := operator_dec_isValue W x hx
  have hlt := value_lt_of_isValue W x hx
  constructor
  · apply value_inj W _ _ (operator_dec_isValue W _ hi) hx
    rw [operator_dec_value W _ hi, operator_inc_value W x hx]
    exact inc_dec_mod _ _ hlt
  · apply value_inj W _ _ (operator_inc_isValue W _ hd) hx
    rw [operator_inc_value W _ hd, operator_dec_value W x hx]
    exact dec_inc_mod _ _ hlt

theorem operator_inc_dec_inverse_witness :
    validBITS 64 ∧ IsValue (WIDTH 64) [4294967295, 4294967295] ∧
    operator_dec (WIDTH 64) (operator_inc (WIDTH 64) [4294967295, 4294967295]) =
      [4294967295, 4294967295] ∧
    operator_inc (WIDTH 64) (operator_dec (WIDTH 64) [4294967295, 4294967295]) =
      [4294967295, 4294967295] ∧
    operator_inc (WIDTH 64) (operator_dec (WIDTH 64) [0, 0]) = [0, 0] :=
  ⟨by decide, by decide,
    (operator_inc_dec_inverse 64 (by decide) [4294967295, 4294967295] (by decide)).1,
    (operator_inc_dec_inverse 64 (by decide) [4294967295, 4294967295] (by decide)).2,
    by decide⟩

/-- C17: for every width with at least two limbs, `GetLow64` of the value
constructed from a 64-bit `b` is `b`; and for every value `x`, `GetLow64(x)`
is limb 0 OR-ed with limb 1 shifted left by 32, the shift losing nothing in
64 bits, which is `value x mod 2^64`. -/
theorem getLow64_spec (BITS : Nat) (hB : validBITS BITS) (hW : 2 ≤ WIDTH BITS)
    (mem : List Nat) (hmem : mem.length = WIDTH BITS) (b : Nat) (hb : b < 2 ^ 64)
    (x : List Nat) (hx : IsValue (WIDTH BITS) x) :
    (∃ w, base_uint_u64 (WIDTH BITS) mem b = some w ∧ GetLow64 (WIDTH BITS) w = some b) ∧
    limb x 1 <<< 32 < 2 ^ 64 ∧
    GetLow64 (WIDTH BITS) x = some (limb x 0 ||| (limb x 1 <<< 32)) ∧
    GetLow64 (WIDTH BITS) x = some (value (WIDTH BITS) x % 2 ^ 64) := by
  have _ := hB
  generalize WIDTH BITS = W at *
  obtain ⟨hw, h0, h1, _, _⟩ := u64_limbs_spec W b hW hb
  have hx1 := hx.2 1 (by omega)
  have hsh : limb x 1 <<< 32 < 2 ^ 64 := by rw [Nat.shiftLeft_eq]; omega
  have hg := getLow64_eq W x hx hW
  refine ⟨⟨_, base_uint_u64_eq W mem b hmem hW, ?_⟩, hsh, ?_, ?_⟩
  · rw [getLow64_eq W _ hw hW, h0, h1]
    congr 1
    omega
  · unfold GetLow64
    rw [if_pos hW, Nat.mod_eq_of_lt hsh]
  · have hm := value_mod_low 2 W x hW (fun i hi => hx.2 i (by omega))
    rw [value_two] at hm
    rw [hg, ← hm]

theorem getLow64_spec_witness :
    validBITS 96 ∧ 2 ≤ WIDTH 96 ∧ [0, 0, 0].length = WIDTH 96 ∧ 12884901893 < 2 ^ 64 ∧
    IsValue (WIDTH 96) [5, 1, 9] ∧
    GetLow64 (WIDTH 96) [5, 1, 9] = some (value (WIDTH 96) [5, 1, 9] % 2 ^ 64) ∧
    GetLow64 (WIDTH 96) [5, 1, 9] = some 4294967301 :=
  ⟨by decide, by decide, by decide, by decide, by decide,
    (getLow64_spec 96 (by decide) (by decide) [0, 0, 0] (by decide) 12884901893 (by decide)
      [5, 1, 9] (by decide)).2.2.2,
    by decide⟩

/-- C18: for every valid width and all values `a`, `b`, in either byte order,
`a == b` (the `memcmp` of the two limb arrays) is true exactly when every limb
of `a` equals the limb of `b` at the same index, which holds exactly when
`value a = value b`; and `a != b` is the negation of `a == b`. -/
theorem operator_eqeq_spec (le : Bool) (BITS : Nat) (hB : validBITS BITS) (a b : List Nat)
    (ha : IsValue (WIDTH BITS) a) (hb : IsValue (WIDTH BITS) b) :
    (operator_eqeq le (WIDTH BITS) a b = true ↔
      ∀ i, i < WIDTH BITS → limb a i = limb b i) ∧
    ((∀ i, i < WIDTH BITS → limb a i = limb b i) ↔
      value (WIDTH BITS) a = value (WIDTH BITS) b) ∧
    operator_neq le (WIDTH BITS) a b = !operator_eqeq le (WIDTH BITS) a b := by
  have _ := hB
  generalize WIDTH BITS = W at *
  refine ⟨?_, ⟨fun h => value_congr W a b h, fun h => limb_eq_of_value_eq W a b ha.2 hb.2 h⟩,
    rfl⟩
  unfold operator_eqeq
  rw [beq_iff_eq, limb_eq_iff_eq W a b ha.1 hb.1]
  have hm := memcmp_object_bytes le a b (by rw [ha.1, hb.1])
    (fun i hi => ha.2 i (by rw [← ha.1]; exact hi))
    (fun i hi => hb.2 i (by rw [← hb.1]; exact hi))
  rw [ha.1] at hm
  exact hm

theorem operator_eqeq_spec_witness :
    validBITS 64 ∧ IsValue (WIDTH 64) [5, 1] ∧ IsValue (WIDTH 64) [5, 2] ∧
    (operator_eqeq false (WIDTH 64) [5, 1] [5, 2] = true ↔
      ∀ i, i < WIDTH 64 → limb [5, 1] i = limb [5, 2] i) ∧
    operator_eqeq false (WIDTH 64) [5, 1] [5, 2] = false ∧
    operator_neq false (WIDTH 64) [5, 1] [5, 2] = true ∧
    operator_eqeq true (WIDTH 64) [5, 1] [5, 1] = true :=
  ⟨by decide, by decide, by decide,
    (operator_eqeq_spec false 64 (by decide) [5, 1] [5, 2] (by decide) (by decide)).1,
    by decide, by decide, by decide⟩

/-- C19: in the loop of `x += y`, for every valid width, all values `x`, `y`
and every iteration `i < WIDTH`, with `s` the state `(pn, carry)` entering the
iteration: the carry is 0 or 1, `pn[i]` is still limb `i` of `x`, the
accumulator `carry + pn[i] + b.pn[i]` is at most `2^33 - 1` and so is not
reduced by the 64-bit arithmetic, and the stored limb and the outgoing carry
are the true sum modulo `2^32` and its quotient by `2^32`. -/
theorem operator_plus_eq_carry_bound (BITS : Nat) (hB : validBITS BITS) (x y : List Nat)
    (hx : IsValue (WIDTH BITS) x) (hy : IsValue (WIDTH BITS) y) (i : Nat)
    (hi : i < WIDTH BITS) (s : List Nat × Nat)
    (hs : s = forLoop 0 i (operator_plus_eq_body y) (x, 0)) :
    (s.2 = 0 ∨ s.2 = 1) ∧
    limb s.1 i = limb x i ∧
    s.2 + limb s.1 i + limb y i ≤ 2 ^ 33 - 1 ∧
    (s.2 + limb s.1 i + limb y i) % 2 ^ 64 = s.2 + limb s.1 i + limb y i ∧
    forLoop 0 (i + 1) (operator_plus_eq_body y) (x, 0) = operator_plus_eq_body y i s ∧
    limb (operator_plus_eq_body y i s).1 i = (s.2 + limb x i + limb y i) % 2 ^ 32 ∧
    (operator_plus_eq_body y i s).2 = (s.2 + limb x i + limb y i) / 2 ^ 32 := by
  have _ := hB
  generalize WIDTH BITS = W at *
  obtain ⟨hlen, hhi, _, hc, _⟩ := operator_plus_eq_inv W x y hx hy i (le_of_lt hi)
  rw [← hs] at hlen hhi hc
  have hxi := hx.2 i hi
  have hyi := hy.2 i hi
  have he := hhi i (le_refl i)
  have hn : (s.2 + limb s.1 i + limb y i) % 2 ^ 64 = s.2 + limb s.1 i + limb y i :=
    Nat.mod_eq_of_lt (by omega)
  refine ⟨by omega, he, by omega, hn, ?_, ?_, ?_⟩
  · rw [forLoop_succ 0 i (Nat.zero_le i), ← hs]
  · simp only [operator_plus_eq_body, hn, and_mask32]
    rw [limb_set_self _ _ _ (by omega), he]
  · simp only [operator_plus_eq_body, hn, Nat.shiftRight_eq_div_pow]
    rw [he]

theorem operator_plus_eq_carry_bound_witness :
    validBITS 96 ∧ IsValue (WIDTH 96) [4294967295, 4294967295, 3] ∧
    IsValue (WIDTH 96) [1, 4294967295, 0] ∧ 1 < WIDTH 96 ∧
    (forLoop 0 1 (operator_plus_eq_body [1, 4294967295, 0])
      ([4294967295, 4294967295, 3], 0)).2 = 1 ∧
    (forLoop 0 1 (operator_plus_eq_body [1, 4294967295, 0])
        ([4294967295, 4294967295, 3], 0)).2 +
      limb (forLoop 0 1 (operator_plus_eq_body [1, 4294967295, 0])
        ([4294967295, 4294967295, 3], 0)).1 1 + limb [1, 4294967295, 0] 1 ≤ 2 ^ 33 - 1 :=
  ⟨by decide, by decide, by decide, by decide, by decide,
    (operator_plus_eq_carry_bound 96 (by decide) [4294967295, 4294967295, 3]
      [1, 4294967295, 0] (by decide) (by decide) 1 (by decide) _ rfl).2.2.1⟩

end base_uint
